import Mathlib

/-!
Verification development for the Pi-hole blocklist downloader/optimizer
(`pihole_downloader.py`).

The program's string-processing core is embedded shallowly: Python strings
become `List Char`, Python's `str.strip`, `str.splitlines`, `'\n'.join`,
regular expressions and dict/set operations are translated into executable
Lean functions below.  ASCII semantics are used for whitespace, case folding
and digits (the blocklist data this program processes is ASCII; Python's
Unicode extensions of `\s`, `\d`, `str.lower` never differ on it).

The main embedded operations are:
* `is_valid_domain`     — the validator (`is_valid_domain`, lines 172-186),
  with `domainPatternMatch` translating the anchored regex `DOMAIN_PATTERN`;
* `extract_domain_from_line` — the extractor (lines 188-218), with
  `ipDomainMatch` / `adblockMatch` translating `IP_DOMAIN_PATTERN` and
  `ADBLOCK_PATTERN`;
* `optimizeCore` / `optimize_blocklist` — the normalizer
  (`optimize_blocklist`, lines 220-375): format detection over the first 200
  lines, the second pass building the domain set, format memory, metadata and
  groups, and re-serialization (`datetime.now()` is passed in as the `now`
  argument);
* `categoryUnion`, `allDomains`, `duplicateCount` — the aggregation step of
  `create_production_lists` (lines 492-522).
-/

namespace Pihole

/-- Python ASCII whitespace: the characters removed by `str.strip()` and
matched by the regex class `\s` (space, tab, newline, carriage return,
vertical tab, form feed). -/
def isPySpace (c : Char) : Bool :=
  c = ' ' || c = '\t' || c = '\n' || c = '\r' || c = '\x0b' || c = '\x0c'

/-- Drop trailing characters satisfying `p` (the right half of `str.strip`). -/
def dropTrail (p : Char → Bool) (l : List Char) : List Char :=
  (l.reverse.dropWhile p).reverse

/-- Python `str.strip()`: remove leading and trailing whitespace. -/
def pyStrip (l : List Char) : List Char :=
  dropTrail isPySpace (l.dropWhile isPySpace)

theorem dropWhile_head_false {p : Char → Bool} {l : List Char} {a : Char}
    (h : (l.dropWhile p).head? = some a) : p a = false := by
  induction l with
  | nil => simp [List.dropWhile] at h
  | cons c cs ih =>
    rw [List.dropWhile_cons] at h
    by_cases hc : p c
    · rw [if_pos hc] at h; exact ih h
    · rw [if_neg hc] at h
      simp only [List.head?_cons, Option.some.injEq] at h
      subst h
      exact Bool.eq_false_iff.mpr hc

theorem mem_dropTrail {p : Char → Bool} {l : List Char} {a : Char}
    (h : a ∈ dropTrail p l) : a ∈ l := by
  unfold dropTrail at h
  rw [List.mem_reverse] at h
  have := (List.dropWhile_suffix (l := l.reverse) p).subset h
  rwa [List.mem_reverse] at this

theorem mem_pyStrip {l : List Char} {a : Char} (h : a ∈ pyStrip l) : a ∈ l := by
  unfold pyStrip at h
  exact (List.dropWhile_suffix (l := l) isPySpace).subset (mem_dropTrail h)

theorem dropTrail_isPre (p : Char → Bool) (l : List Char) :
    ∃ t, dropTrail p l ++ t = l := by
  obtain ⟨t, ht⟩ := List.dropWhile_suffix (l := l.reverse) p
  refine ⟨t.reverse, ?_⟩
  have : (t ++ l.reverse.dropWhile p).reverse = l.reverse.reverse := by rw [ht]
  simpa [dropTrail] using this

theorem pyStrip_isPre (l : List Char) :
    ∃ s t, s ++ pyStrip l ++ t = l := by
  obtain ⟨t, ht⟩ := dropTrail_isPre isPySpace (l.dropWhile isPySpace)
  obtain ⟨s, hs⟩ := List.dropWhile_suffix (l := l) isPySpace
  refine ⟨s, t, ?_⟩
  have h1 : pyStrip l ++ t = l.dropWhile isPySpace := ht
  rw [List.append_assoc, h1, hs]

theorem head?_of_isPre {m n : List Char} (h : ∃ t, m ++ t = n) (hne : m ≠ []) :
    n.head? = m.head? := by
  obtain ⟨t, rfl⟩ := h
  cases m with
  | nil => exact absurd rfl hne
  | cons c cs => rfl

/-- The head of a stripped string never satisfies the stripping predicate. -/
theorem pyStrip_head_false {l : List Char} {a : Char}
    (h : (pyStrip l).head? = some a) : isPySpace a = false := by
  have hne : pyStrip l ≠ [] := by
    intro hn; rw [hn] at h; simp at h
  obtain ⟨t, ht⟩ := dropTrail_isPre isPySpace (l.dropWhile isPySpace)
  have hh : (l.dropWhile isPySpace).head? = (pyStrip l).head? :=
    head?_of_isPre ⟨t, ht⟩ hne
  exact dropWhile_head_false (l := l) (hh.trans h)

theorem pyStrip_getLast_false {l : List Char} {a : Char}
    (h : (pyStrip l).getLast? = some a) : isPySpace a = false := by
  unfold pyStrip dropTrail at h
  rw [List.getLast?_reverse] at h
  exact dropWhile_head_false h

theorem dropWhile_eq_self_of_head {p : Char → Bool} {l : List Char}
    (h : ∀ a, l.head? = some a → p a = false) : l.dropWhile p = l := by
  cases l with
  | nil => rfl
  | cons c cs => rw [List.dropWhile_cons, h c rfl]; simp

/-- A string whose first and last characters are not whitespace is unchanged
by `str.strip()`. -/
theorem pyStrip_eq_self {l : List Char}
    (hh : ∀ a, l.head? = some a → isPySpace a = false)
    (hl : ∀ a, l.getLast? = some a → isPySpace a = false) : pyStrip l = l := by
  unfold pyStrip dropTrail
  rw [dropWhile_eq_self_of_head hh]
  rw [dropWhile_eq_self_of_head (by
    intro a ha
    rw [List.head?_reverse] at ha
    exact hl a ha)]
  exact List.reverse_reverse l

/-- Stripping is idempotent. -/
theorem pyStrip_idem (l : List Char) : pyStrip (pyStrip l) = pyStrip l := by
  rcases hn : pyStrip l with _ | ⟨c, cs⟩
  · rfl
  · rw [← hn]
    refine pyStrip_eq_self ?_ ?_
    · intro a ha; exact pyStrip_head_false ha
    · intro a ha; exact pyStrip_getLast_false ha

theorem pyStrip_head_of_head {l : List Char} {a : Char}
    (hh : l.head? = some a) (ha : isPySpace a = false) :
    (pyStrip l).head? = some a := by
  cases l with
  | nil => simp at hh
  | cons c cs =>
    obtain rfl : c = a := by simpa using hh
    show (dropTrail isPySpace ((c :: cs).dropWhile isPySpace)).head? = some c
    rw [List.dropWhile_cons, if_neg (by simp [ha])]
    unfold dropTrail
    rw [List.reverse_cons, List.dropWhile_append]
    by_cases hemp : (cs.reverse.dropWhile isPySpace).isEmpty
    · rw [if_pos hemp]
      have h1 : List.dropWhile isPySpace [c] = [c] := by
        rw [show [c] = c :: ([] : List Char) from rfl, List.dropWhile_cons,
          if_neg (by simp [ha])]
      rw [h1]
      rfl
    · rw [if_neg hemp, List.reverse_append]
      simp

theorem takeWhile_eq_self_of_all {p : Char → Bool} {l : List Char}
    (h : ∀ a ∈ l, p a = true) : l.takeWhile p = l := by
  induction l with
  | nil => rfl
  | cons c cs ih =>
    rw [List.takeWhile_cons, if_pos (h c (by simp))]
    exact congrArg (c :: ·) (ih (fun a ha => h a (by simp [ha])))

theorem takeWhile_eq_nil_of_head {p : Char → Bool} {l : List Char} {a : Char}
    (hh : l.head? = some a) (ha : p a = false) : l.takeWhile p = [] := by
  cases l with
  | nil => rfl
  | cons c cs =>
    obtain rfl : c = a := by simpa using hh
    rw [List.takeWhile_cons, if_neg (by simp [ha])]

/-- Split a character list at every occurrence of `sep` (Python
`str.split(sep)`): always returns at least one segment, and no segment
contains `sep`. -/
def splitOnSep (sep : Char) : List Char → List (List Char)
  | [] => [[]]
  | c :: cs =>
    match splitOnSep sep cs with
    | [] => [[]]
    | h :: t => if c = sep then [] :: h :: t else (c :: h) :: t

theorem splitOnSep_ne_nil (sep : Char) (l : List Char) : splitOnSep sep l ≠ [] := by
  cases l with
  | nil => simp [splitOnSep]
  | cons c cs =>
    rw [splitOnSep]
    rcases splitOnSep sep cs with _ | ⟨h, t⟩
    · simp
    · by_cases hc : c = sep <;> simp [hc]

theorem splitOnSep_cons_sep (sep : Char) (cs : List Char) :
    splitOnSep sep (sep :: cs) = [] :: splitOnSep sep cs := by
  rcases hs : splitOnSep sep cs with _ | ⟨h, t⟩
  · exact absurd hs (splitOnSep_ne_nil sep cs)
  · rw [splitOnSep, hs]
    show (if sep = sep then [] :: h :: t else (sep :: h) :: t) = [] :: h :: t
    rw [if_pos rfl]

theorem splitOnSep_cons_ne {sep c : Char} (cs : List Char) (hc : ¬ c = sep)
    {h : List Char} {t : List (List Char)} (hs : splitOnSep sep cs = h :: t) :
    splitOnSep sep (c :: cs) = (c :: h) :: t := by
  rw [splitOnSep, hs]
  show (if c = sep then [] :: h :: t else (c :: h) :: t) = (c :: h) :: t
  rw [if_neg hc]

theorem splitOnSep_of_not_mem {sep : Char} {l : List Char} (h : sep ∉ l) :
    splitOnSep sep l = [l] := by
  induction l with
  | nil => rfl
  | cons c cs ih =>
    have hcs := ih (fun hm => h (by simp [hm]))
    rw [splitOnSep_cons_ne cs (fun hc => h (by simp [hc])) hcs]

theorem splitOnSep_append_sep {sep : Char} {l : List Char} (r : List Char)
    (h : sep ∉ l) : splitOnSep sep (l ++ sep :: r) = l :: splitOnSep sep r := by
  induction l with
  | nil =>
    rw [List.nil_append]
    exact splitOnSep_cons_sep sep r
  | cons c cs ih =>
    have hcs := ih (fun hm => h (by simp [hm]))
    rw [List.cons_append, splitOnSep_cons_ne _ (fun hc => h (by simp [hc])) hcs]

theorem mem_of_mem_splitOnSep {sep : Char} {l part : List Char} {a : Char}
    (hp : part ∈ splitOnSep sep l) (ha : a ∈ part) : a ∈ l := by
  induction l generalizing part with
  | nil =>
    simp [splitOnSep] at hp
    subst hp
    simp at ha
  | cons c cs ih =>
    by_cases hc : c = sep
    · subst hc
      rw [splitOnSep_cons_sep, List.mem_cons] at hp
      rcases hp with hp | hp
      · subst hp; simp at ha
      · exact List.mem_cons_of_mem c (ih hp ha)
    · rcases hs : splitOnSep sep cs with _ | ⟨h, t⟩
      · exact absurd hs (splitOnSep_ne_nil sep cs)
      · rw [splitOnSep_cons_ne cs hc hs, List.mem_cons] at hp
        rcases hp with hp | hp
        · subst hp
          rw [List.mem_cons] at ha
          rcases ha with ha | ha
          · simp [ha]
          · exact List.mem_cons_of_mem c (ih (by rw [hs]; simp) ha)
        · exact List.mem_cons_of_mem c
            (ih (by rw [hs]; exact List.mem_cons_of_mem h hp) ha)

theorem not_sep_mem_of_mem_splitOnSep {sep : Char} {l part : List Char}
    (hp : part ∈ splitOnSep sep l) : sep ∉ part := by
  induction l generalizing part with
  | nil =>
    simp [splitOnSep] at hp
    subst hp; simp
  | cons c cs ih =>
    by_cases hc : c = sep
    · subst hc
      rw [splitOnSep_cons_sep, List.mem_cons] at hp
      rcases hp with hp | hp
      · subst hp; simp
      · exact ih hp
    · rcases hs : splitOnSep sep cs with _ | ⟨h, t⟩
      · exact absurd hs (splitOnSep_ne_nil sep cs)
      · rw [splitOnSep_cons_ne cs hc hs, List.mem_cons] at hp
        rcases hp with hp | hp
        · subst hp
          intro hm
          rw [List.mem_cons] at hm
          rcases hm with hm | hm
          · exact hc hm.symm
          · exact ih (by rw [hs]; simp) hm
        · exact ih (by rw [hs]; exact List.mem_cons_of_mem h hp)

/-- Python `'\n'.join(...)` specialized to joining output lines. -/
def joinNl : List (List Char) → List Char
  | [] => []
  | [l] => l
  | l :: ls => l ++ '\n' :: joinNl ls

theorem splitOnSep_joinNl {ls : List (List Char)} (hne : ls ≠ [])
    (h : ∀ l ∈ ls, '\n' ∉ l) : splitOnSep '\n' (joinNl ls) = ls := by
  induction ls with
  | nil => exact absurd rfl hne
  | cons l ls ih =>
    cases ls with
    | nil =>
      rw [show joinNl [l] = l from rfl]
      exact splitOnSep_of_not_mem (h l (by simp))
    | cons m ms =>
      rw [show joinNl (l :: m :: ms) = l ++ '\n' :: joinNl (m :: ms) from rfl]
      rw [splitOnSep_append_sep _ (h l (by simp))]
      rw [ih (by simp) (fun x hx => h x (by simp [hx]))]

/-- Python `str.splitlines()` restricted to `'\n'` separators: like splitting
on `'\n'` except that a trailing empty segment (from a trailing newline) is
not a line. -/
def pySplitlines (l : List Char) : List (List Char) :=
  if (splitOnSep '\n' l).getLast? = some [] then (splitOnSep '\n' l).dropLast
  else splitOnSep '\n' l

theorem mem_of_mem_pySplitlines {l part : List Char} {a : Char}
    (hp : part ∈ pySplitlines l) (ha : a ∈ part) : a ∈ l := by
  unfold pySplitlines at hp
  split at hp
  · exact mem_of_mem_splitOnSep ((List.dropLast_sublist _).subset hp) ha
  · exact mem_of_mem_splitOnSep hp ha

theorem no_newline_of_mem_pySplitlines {l part : List Char}
    (hp : part ∈ pySplitlines l) : '\n' ∉ part := by
  unfold pySplitlines at hp
  split at hp
  · exact not_sep_mem_of_mem_splitOnSep ((List.dropLast_sublist _).subset hp)
  · exact not_sep_mem_of_mem_splitOnSep hp

/-- Alphanumeric ASCII character: the regex class `[a-zA-Z0-9]`. -/
def isAlnum (c : Char) : Bool := c.isAlpha || c.isDigit

/-- Label character: the regex class `[a-zA-Z0-9-]`. -/
def isLabelChar (c : Char) : Bool := isAlnum c || c = '-'

/-- One non-final label of `DOMAIN_PATTERN`:
`[a-zA-Z0-9](?:[a-zA-Z0-9-]{0,61}[a-zA-Z0-9])?` — a single alphanumeric, or
an alphanumeric, then up to 61 label characters, then an alphanumeric.
Equivalently: 1 to 63 label characters whose first and last are
alphanumeric. -/
def validLabel (l : List Char) : Bool :=
  (match l.head? with | some c => isAlnum c | none => false) &&
  (match l.getLast? with | some c => isAlnum c | none => false) &&
  l.all isLabelChar && decide (l.length ≤ 63)

/-- The final (TLD) part of `DOMAIN_PATTERN`:
`[a-zA-Z0-9][a-zA-Z0-9-]{0,61}[a-zA-Z0-9]` — an alphanumeric, up to 61 label
characters, and an alphanumeric: i.e. the label shape with at least two
characters. -/
def validTld (l : List Char) : Bool :=
  validLabel l && decide (2 ≤ l.length)

/-- Checks a dot-free segment sequence against `(label\.)+tld`: all segments
but the last must be labels, the last must be a TLD, and there must be at
least two segments (the `+` requires at least one `label.` before the TLD). -/
def segsOk : List (List Char) → Bool
  | [] => false
  | [t] => validTld t
  | h :: t => validLabel h && segsOk t

/-- Worker for `domainPatternMatch`: walks the string, keeping the reversed
current dot-free segment in `acc`. -/
def pMatchAux (acc : List Char) : List Char → Bool
  | [] => validTld acc.reverse
  | c :: cs =>
    if c = '.' then validLabel acc.reverse && pMatchAux [] cs
    else pMatchAux (c :: acc) cs

/-- The body of `DOMAIN_PATTERN` matched against the whole subject.
Since neither the label shape nor the TLD shape can contain a dot, a match
decomposes the subject uniquely at its dots, so the body covers the subject
exactly when there is at least one dot and every dot-separated segment but
the last has the label shape while the last has the TLD shape. -/
def domainPatternCore (s : List Char) : Bool :=
  decide ('.' ∈ s) && pMatchAux [] s

/-- Translation of the anchored regex `DOMAIN_PATTERN` =
`^([a-zA-Z0-9]([a-zA-Z0-9-]{0,61}[a-zA-Z0-9])?\.)+[a-zA-Z0-9][a-zA-Z0-9-]{0,61}[a-zA-Z0-9]$`
under Python `re` semantics: `re.match` anchors at the start, and without
`re.MULTILINE` the `$` anchor matches at the end of the subject or just
before a newline that ends the subject.  So the pattern matches `s` exactly
when its body covers all of `s`, or `s` ends with a newline and the body
covers all of `s` but that final newline. -/
def domainPatternMatch (s : List Char) : Bool :=
  domainPatternCore s ||
    (decide (s.getLast? = some '\n') && domainPatternCore s.dropLast)

/-- The validator `is_valid_domain` (source lines 172-186): reject empty,
`localhost` and `.local` suffixes, then reject tokens longer than 253
characters (measured on the raw token, before wildcard stripping), then
strip a leading `*.` and match `DOMAIN_PATTERN` against the remainder. -/
def is_valid_domain (d : List Char) : Bool :=
  if d = [] ∨ d = "localhost".toList ∨ ".local".toList <:+ d then false
  else if 253 < d.length then false
  else domainPatternMatch (if d.take 2 = ['*', '.'] then d.drop 2 else d)

theorem pMatchAux_segs (s : List Char) : ∀ (acc : List Char)
    {h : List Char} {t : List (List Char)}, splitOnSep '.' s = h :: t →
    pMatchAux acc s = segsOk ((acc.reverse ++ h) :: t) := by
  induction s with
  | nil =>
    intro acc h t hs
    simp [splitOnSep] at hs
    obtain ⟨rfl, rfl⟩ := hs
    simp [pMatchAux, segsOk]
  | cons c cs ih =>
    intro acc h t hs
    rcases hcs : splitOnSep '.' cs with _ | ⟨h2, t2⟩
    · exact absurd hcs (splitOnSep_ne_nil '.' cs)
    · by_cases hc : c = '.'
      · subst hc
        rw [splitOnSep_cons_sep, hcs] at hs
        obtain ⟨rfl, rfl⟩ : h = [] ∧ t = h2 :: t2 := by
          constructor <;> [exact (List.cons.injEq _ _ _ _ ▸ hs).1.symm;
            exact (List.cons.injEq _ _ _ _ ▸ hs).2.symm]
        rw [show pMatchAux acc ('.' :: cs) =
          (validLabel acc.reverse && pMatchAux [] cs) from rfl]
        rw [ih [] hcs]
        simp [segsOk]
      · rw [splitOnSep_cons_ne cs hc hcs] at hs
        obtain ⟨rfl, rfl⟩ : h = c :: h2 ∧ t = t2 := by
          constructor <;> [exact (List.cons.injEq _ _ _ _ ▸ hs).1.symm;
            exact (List.cons.injEq _ _ _ _ ▸ hs).2.symm]
        rw [show pMatchAux acc (c :: cs) = pMatchAux (c :: acc) cs by
          rw [pMatchAux, if_neg hc]]
        rw [ih (c :: acc) hcs]
        rw [List.reverse_cons, List.append_assoc]
        rfl

theorem mem_dot_iff_segments (s : List Char) :
    '.' ∈ s ↔ 2 ≤ (splitOnSep '.' s).length := by
  induction s with
  | nil => simp [splitOnSep]
  | cons c cs ih =>
    by_cases hc : c = '.'
    · subst hc
      rw [splitOnSep_cons_sep]
      have := splitOnSep_ne_nil '.' cs
      constructor
      · intro _
        have : 1 ≤ (splitOnSep '.' cs).length := by
          rcases hn : splitOnSep '.' cs with _ | ⟨x, xs⟩
          · exact absurd hn this
          · simp
        simpa using Nat.succ_le_succ this
      · intro _; simp
    · rcases hcs : splitOnSep '.' cs with _ | ⟨h2, t2⟩
      · exact absurd hcs (splitOnSep_ne_nil '.' cs)
      · rw [splitOnSep_cons_ne cs hc hcs]
        rw [hcs] at ih
        constructor
        · intro hm
          rw [List.mem_cons] at hm
          rcases hm with hm | hm
          · exact absurd hm.symm hc
          · have := ih.mp hm
            simpa using this
        · intro hl
          have : 2 ≤ (h2 :: t2).length := by simpa using hl
          exact List.mem_cons_of_mem c (ih.mpr this)

theorem segsOk_iff (parts : List (List Char)) (hne : parts ≠ []) :
    segsOk parts =
      (parts.dropLast.all validLabel &&
        match parts.getLast? with
        | some t => validTld t
        | none => false) := by
  induction parts with
  | nil => exact absurd rfl hne
  | cons h t ih =>
    cases t with
    | nil => simp [segsOk]
    | cons h2 t2 =>
      rw [show segsOk (h :: h2 :: t2) = (validLabel h && segsOk (h2 :: t2)) from rfl]
      rw [ih (by simp)]
      rw [show (h :: h2 :: t2).dropLast = h :: (h2 :: t2).dropLast from rfl]
      rw [show (h :: h2 :: t2).getLast? = (h2 :: t2).getLast? from
        List.getLast?_cons_cons]
      simp [Bool.and_assoc]

/-- Dot-decomposition shape of the `DOMAIN_PATTERN` body: dot-separated
labels, at least two of them, each non-final label of the 1-63 label shape,
and the final label of the 2-63 TLD shape. -/
def specDomainShapeDots (s : List Char) : Bool :=
  decide (2 ≤ (splitOnSep '.' s).length) &&
  (splitOnSep '.' s).dropLast.all validLabel &&
  (match (splitOnSep '.' s).getLast? with
   | some t => validTld t
   | none => false)

/-- Domain shape in the words of the specification, with the amendments the
code forces (C5): the token — after removing the single trailing newline
that Python's `$` anchor tolerates, when present — splits at dots into at
least two labels, each non-final label of the 1-63 label shape, and the
final TLD label of the 2-63 shape. -/
def specDomainShapeAmended (s : List Char) : Bool :=
  specDomainShapeDots s ||
    (decide (s.getLast? = some '\n') && specDomainShapeDots s.dropLast)

/-- Domain shape exactly as claim C5 states it: dot-separated labels, at
least two of them, every label — including the final TLD label — of the
1-63 label shape (alphanumeric first and last, alphanumeric-or-hyphen
interior). -/
def specDomainShapeClaim (s : List Char) : Bool :=
  decide (2 ≤ (splitOnSep '.' s).length) &&
  (splitOnSep '.' s).all validLabel

theorem domainPatternCore_eq_spec (s : List Char) :
    domainPatternCore s = specDomainShapeDots s := by
  rcases hs : splitOnSep '.' s with _ | ⟨h, t⟩
  · exact absurd hs (splitOnSep_ne_nil '.' s)
  · have h1 : pMatchAux [] s = segsOk (h :: t) := by
      have := pMatchAux_segs s [] hs
      simpa using this
    have h2 : decide ('.' ∈ s) = decide (2 ≤ (splitOnSep '.' s).length) :=
      decide_eq_decide.mpr (mem_dot_iff_segments s)
    unfold domainPatternCore specDomainShapeDots
    rw [h2, h1, segsOk_iff _ (by simp), hs]
    simp [Bool.and_assoc]

theorem domainPatternMatch_eq_spec (s : List Char) :
    domainPatternMatch s = specDomainShapeAmended s := by
  unfold domainPatternMatch specDomainShapeAmended
  rw [domainPatternCore_eq_spec, domainPatternCore_eq_spec]

/-- C5 (amended): `is_valid_domain` accepts exactly the tokens that, after
the exclusions (empty, `localhost`, `.local` suffix), the 253-length bound
on the raw token, optional `*.` stripping, and removal of the single
trailing newline that Python's `$` anchor tolerates (when present), split
at dots into at least two labels where every non-final label has the 1-63
label shape and the final TLD label has the 2-63 shape (so a
single-character TLD such as in `x.a` is rejected, while `x.aa` followed by
a newline is accepted). -/
theorem claim_C5 (d : List Char) :
    is_valid_domain d = true ↔
      (d ≠ [] ∧ d ≠ "localhost".toList ∧ ¬ (".local".toList <:+ d) ∧
       d.length ≤ 253 ∧
       specDomainShapeAmended (if d.take 2 = ['*', '.'] then d.drop 2 else d)
         = true) := by
  unfold is_valid_domain
  by_cases h1 : d = [] ∨ d = "localhost".toList ∨ ".local".toList <:+ d
  · rw [if_pos h1]
    constructor
    · intro hf; simp at hf
    · rintro ⟨hne, hlh, hloc, -, -⟩
      rcases h1 with h | h | h
      · exact (hne h).elim
      · exact (hlh h).elim
      · exact (hloc h).elim
  · rw [if_neg h1]
    push_neg at h1
    obtain ⟨hne, hlh, hloc⟩ := h1
    by_cases h2 : 253 < d.length
    · rw [if_pos h2]
      constructor
      · intro hf; simp at hf
      · rintro ⟨-, -, -, hlen, -⟩; omega
    · rw [if_neg h2, domainPatternMatch_eq_spec]
      constructor
      · intro h; exact ⟨hne, hlh, hloc, by omega, h⟩
      · rintro ⟨-, -, -, -, h⟩; exact h

/-- C5 counterexample: the claim's characterization fails in both
directions.  The token `x.a` satisfies every acceptance condition of the
claim as stated (both labels have the 1-63 label shape, it is within the
length bound and not excluded), yet `is_valid_domain` rejects it: the regex
requires the final TLD label to have at least 2 characters.  Conversely the
token `x.aa` followed by a newline is accepted by `is_valid_domain` —
Python's `$` anchor matches just before a trailing newline — although its
final dot-separated segment does not have the label shape the claim
requires. -/
theorem claim_C5_counterexample :
    is_valid_domain ("x.a".toList) = false ∧
    specDomainShapeClaim ("x.a".toList) = true ∧
    ("x.a".toList ≠ [] ∧ "x.a".toList ≠ "localhost".toList ∧
     ¬ (".local".toList <:+ "x.a".toList) ∧ ("x.a".toList).length ≤ 253 ∧
     ("x.a".toList).take 2 ≠ ['*', '.']) ∧
    is_valid_domain ("x.aa\n".toList) = true ∧
    specDomainShapeClaim ("x.aa\n".toList) = false := by decide

/-- A 255-character wildcard token whose remainder after `*.` is a valid
253-character domain (three 63-character labels and one 61-character TLD). -/
def wildToken255 : List Char :=
  '*' :: '.' :: (List.replicate 63 'a' ++ '.' :: List.replicate 63 'a' ++
    '.' :: List.replicate 63 'a' ++ '.' :: List.replicate 61 'a')

set_option maxRecDepth 8000 in
/-- C4 counterexample: the 253-character limit is applied to the raw token
before wildcard stripping, so a 255-character token whose remainder after
`*.` is a syntactically valid 253-character domain is rejected, contrary to
the claim. -/
theorem claim_C4_counterexample :
    is_valid_domain wildToken255 = false ∧ wildToken255.length = 255 ∧
    wildToken255.take 2 = ['*', '.'] ∧ (wildToken255.drop 2).length = 253 ∧
    domainPatternMatch (wildToken255.drop 2) = true := by decide

/-- C4 (amended): the 253-character length limit is applied to the token
BEFORE the `*.` prefix is stripped — any token longer than 253 characters is
rejected outright — while for wildcard tokens within the bound (and not
excluded) validation proceeds against the remainder after `*.`. -/
theorem claim_C4 :
    (∀ d : List Char, 253 < d.length → is_valid_domain d = false) ∧
    (∀ d : List Char, d.take 2 = ['*', '.'] → d.length ≤ 253 →
      ¬ (".local".toList <:+ d) →
      is_valid_domain d = domainPatternMatch (d.drop 2)) := by
  constructor
  · intro d hlen
    unfold is_valid_domain
    by_cases h1 : d = [] ∨ d = "localhost".toList ∨ ".local".toList <:+ d
    · rw [if_pos h1]
    · rw [if_neg h1, if_pos hlen]
  · intro d htake hlen hloc
    have hne : d ≠ [] := by intro h; rw [h] at htake; simp at htake
    have hlh : d ≠ "localhost".toList := by
      intro h; rw [h] at htake; exact absurd htake (by decide)
    unfold is_valid_domain
    rw [if_neg (by push_neg; exact ⟨hne, hlh, hloc⟩), if_neg (by omega),
      if_pos htake]

set_option maxRecDepth 8000 in
theorem claim_C4_witness :
    is_valid_domain wildToken255 = false ∧
    is_valid_domain ("*.x.com".toList) = true := by
  constructor
  · exact claim_C4.1 wildToken255 (by decide)
  · rw [claim_C4.2 ("*.x.com".toList) (by decide) (by decide) (by decide)]
    decide

/-- Consume `\d{1,3}` followed by more pattern: since a digit can never match
the character the regex requires next (a dot or whitespace), backtracking
never helps, and the regex accepts exactly when the maximal leading digit run
has length 1 to 3.  Returns the rest of the input. -/
def chompOctet (l : List Char) : Option (List Char) :=
  if 1 ≤ (l.takeWhile Char.isDigit).length ∧ (l.takeWhile Char.isDigit).length ≤ 3
  then some (l.drop (l.takeWhile Char.isDigit).length)
  else none

/-- Consume one expected literal character. -/
def expectChar (c : Char) : List Char → Option (List Char)
  | [] => none
  | x :: xs => if x = c then some xs else none

/-- Translation of `IP_DOMAIN_PATTERN` =
`^\s*\d{1,3}\.\d{1,3}\.\d{1,3}\.\d{1,3}\s+(\S+)$`: optional whitespace, four
1-3 digit runs separated by dots, at least one whitespace character, then the
captured group — one or more non-whitespace characters reaching the end of
the subject. -/
def ipDomainMatch (l : List Char) : Option (List Char) := do
  let r1 ← chompOctet (l.dropWhile isPySpace)
  let r2 ← expectChar '.' r1
  let r3 ← chompOctet r2
  let r4 ← expectChar '.' r3
  let r5 ← chompOctet r4
  let r6 ← expectChar '.' r5
  let r7 ← chompOctet r6
  let ws := r7.takeWhile isPySpace
  let t := r7.drop ws.length
  if 1 ≤ ws.length ∧ t ≠ [] ∧ t.all (fun c => isPySpace c = false) then some t
  else none

/-- After the caret of `ADBLOCK_PATTERN` = `^\|\|(.+?)\^(?:\$.*)?$` the
subject must either end or continue with a `$options` suffix. -/
def adblockTailOk (rest : List Char) : Bool :=
  decide (rest = [] ∨ rest.head? = some '$')

/-- Scan for the non-greedy `(.+?)\^`: return the group ending at the
earliest caret (at least one character in) whose tail is acceptable.  `.`
does not match a newline, so a newline aborts the scan (all call sites pass
single lines). -/
def adblockScan (acc : List Char) : List Char → Option (List Char)
  | [] => none
  | c :: rest =>
    if c = '\n' then none
    else if acc ≠ [] ∧ c = '^' ∧ adblockTailOk rest = true then some acc.reverse
    else adblockScan (c :: acc) rest

/-- Translation of `ADBLOCK_PATTERN`: a `||` prefix, then the scan. -/
def adblockMatch (l : List Char) : Option (List Char) :=
  if l.take 2 = ['|', '|'] then adblockScan [] (l.drop 2) else none

/-- Python `re.sub(r'(#|!).*$', '', line)`: delete everything from the first
`#` or `!` to the end of the line. -/
def removeInlineComments (l : List Char) : List Char :=
  l.takeWhile (fun c => decide (c ≠ '#' ∧ c ≠ '!'))

/-- The extractor `extract_domain_from_line` (source lines 188-218): strip;
drop blank and comment lines; strip inline comments; try the hosts-file
pattern, then the AdBlock pattern, then accept the whole line as a plain
domain when it has none of space, slash, question mark, `!`, `#`. -/
def extract_domain_from_line (line : List Char) : Option (List Char) :=
  if pyStrip line = [] ∨ (pyStrip line).head? = some '#' ∨
      (pyStrip line).head? = some '!' then none
  else if pyStrip (removeInlineComments (pyStrip line)) = [] then none
  else
    match ipDomainMatch (pyStrip (removeInlineComments (pyStrip line))) with
    | some d => some d
    | none =>
      match adblockMatch (pyStrip (removeInlineComments (pyStrip line))) with
      | some d => some d
      | none =>
        if ' ' ∈ pyStrip (removeInlineComments (pyStrip line)) ∨
            '/' ∈ pyStrip (removeInlineComments (pyStrip line)) ∨
            '?' ∈ pyStrip (removeInlineComments (pyStrip line)) ∨
            '!' ∈ pyStrip (removeInlineComments (pyStrip line)) ∨
            '#' ∈ pyStrip (removeInlineComments (pyStrip line)) then none
        else some (pyStrip (removeInlineComments (pyStrip line)))

theorem chompOctet_suffix {l r : List Char} (h : chompOctet l = some r) :
    r <:+ l := by
  unfold chompOctet at h
  split at h
  · cases h; exact List.drop_suffix _ _
  · simp at h

theorem expectChar_suffix {c : Char} {l r : List Char}
    (h : expectChar c l = some r) : r <:+ l := by
  cases l with
  | nil => simp [expectChar] at h
  | cons x xs =>
    have he : expectChar c (x :: xs) = if x = c then some xs else none := rfl
    rw [he] at h
    split at h
    · cases h; exact ⟨[x], rfl⟩
    · simp at h

theorem ipDomainMatch_suffix {l t : List Char} (h : ipDomainMatch l = some t) :
    t <:+ l := by
  simp only [ipDomainMatch, Option.bind_eq_bind, Option.bind_eq_some] at h
  obtain ⟨r1, h1, r2, h2, r3, h3, r4, h4, r5, h5, r6, h6, r7, h7, hif⟩ := h
  have ht : t <:+ r7 := by
    split at hif
    · cases hif; exact List.drop_suffix _ _
    · simp at hif
  have := ht.trans (chompOctet_suffix h7)
  have := this.trans (expectChar_suffix h6)
  have := this.trans (chompOctet_suffix h5)
  have := this.trans (expectChar_suffix h4)
  have := this.trans (chompOctet_suffix h3)
  have := this.trans (expectChar_suffix h2)
  have := this.trans (chompOctet_suffix h1)
  exact this.trans (List.dropWhile_suffix isPySpace)

theorem adblockScan_chars {g : List Char} :
    ∀ (body acc : List Char), adblockScan acc body = some g →
    ∀ c ∈ g, c ∈ acc ∨ c ∈ body := by
  intro body
  induction body with
  | nil => intro acc h; simp [adblockScan] at h
  | cons b rest ih =>
    intro acc h c hc
    unfold adblockScan at h
    split at h
    · simp at h
    · split at h
      · cases h
        rw [List.mem_reverse] at hc
        exact Or.inl hc
      · rcases ih (b :: acc) h c hc with hm | hm
        · rw [List.mem_cons] at hm
          rcases hm with hm | hm
          · exact Or.inr (by simp [hm])
          · exact Or.inl hm
        · exact Or.inr (List.mem_cons_of_mem b hm)

theorem adblockMatch_chars {l g : List Char} (h : adblockMatch l = some g) :
    ∀ c ∈ g, c ∈ l := by
  intro c hc
  unfold adblockMatch at h
  split at h
  · rcases adblockScan_chars (l.drop 2) [] h c hc with hm | hm
    · simp at hm
    · exact (List.drop_suffix 2 l).subset hm
  · simp at h

theorem removeInline_no_comment_chars {l : List Char} {a : Char}
    (h : a ∈ pyStrip (removeInlineComments l)) : a ≠ '#' ∧ a ≠ '!' := by
  have h2 : a ∈ removeInlineComments l := mem_pyStrip h
  have := List.mem_takeWhile_imp h2
  simpa using this

theorem mem_removeInline {l : List Char} {a : Char}
    (h : a ∈ removeInlineComments l) : a ∈ l :=
  (List.takeWhile_sublist _).subset h

/-- Character provenance of the extractor: every character of a returned
token occurs in the input line (each branch returns a sublist of the
stripped, comment-stripped line). -/
theorem extract_chars {line d : List Char}
    (h : extract_domain_from_line line = some d) : ∀ c ∈ d, c ∈ line := by
  intro c hc
  unfold extract_domain_from_line at h
  split at h
  · simp at h
  · split at h
    · simp at h
    · split at h
      · next heq =>
        cases h
        exact mem_pyStrip (mem_removeInline (mem_pyStrip
          ((ipDomainMatch_suffix heq).subset hc)))
      · split at h
        · next heq =>
          cases h
          exact mem_pyStrip (mem_removeInline (mem_pyStrip
            (adblockMatch_chars heq c hc)))
        · split at h
          · simp at h
          · cases h
            exact mem_pyStrip (mem_removeInline (mem_pyStrip hc))

/-- C9: whenever `extract_domain_from_line` returns a token, that token
contains neither `#` nor `!`: inline-comment stripping removes everything
from the first occurrence of either character before any pattern is tried,
and every returned token is built from characters of the stripped line. -/
theorem claim_C9 (line d : List Char)
    (h : extract_domain_from_line line = some d) : '#' ∉ d ∧ '!' ∉ d := by
  have key : ∀ a ∈ d, a ≠ '#' ∧ a ≠ '!' := by
    intro a ha
    unfold extract_domain_from_line at h
    split at h
    · simp at h
    · split at h
      · simp at h
      · split at h
        · next heq =>
          cases h
          exact removeInline_no_comment_chars
            ((ipDomainMatch_suffix heq).subset ha)
        · split at h
          · next heq =>
            cases h
            exact removeInline_no_comment_chars (adblockMatch_chars heq a ha)
          · split at h
            · simp at h
            · cases h
              exact removeInline_no_comment_chars ha
  exact ⟨fun hm => (key '#' hm).1 rfl, fun hm => (key '!' hm).2 rfl⟩

theorem claim_C9_witness : '#' ∉ ("x.com".toList) ∧ '!' ∉ ("x.com".toList) :=
  claim_C9 ("0.0.0.0 x.com # tracker".toList) ("x.com".toList) (by decide)

/-- Per-category union sets built by `create_production_lists`
(lines 497-509): the union of the domain sets of all sources carrying the
category.  Categories are modeled as numeric identifiers carrying an
arbitrary fixed linear order, used only to enumerate unordered pairs. -/
def categoryUnion (inputs : List (ℕ × Finset (List Char))) (c : ℕ) :
    Finset (List Char) :=
  inputs.foldl (fun acc p => if p.1 = c then acc ∪ p.2 else acc) ∅

/-- The global set `all_domains` (lines 497-506): union of all sources. -/
def allDomains (inputs : List (ℕ × Finset (List Char))) : Finset (List Char) :=
  inputs.foldl (fun acc p => acc ∪ p.2) ∅

/-- The duplicate statistic of lines 512-520: the double loop adds
`|f c1 ∩ f c2|` for every ordered pair of distinct categories, and the
result is halved with integer division. -/
def duplicateCount (cats : Finset ℕ) (f : ℕ → Finset (List Char)) : ℕ :=
  (∑ c1 ∈ cats, ∑ c2 ∈ cats, if c1 ≠ c2 then (f c1 ∩ f c2).card else 0) / 2

theorem mem_categoryUnion {inputs : List (ℕ × Finset (List Char))} {c : ℕ}
    {d : List Char} :
    d ∈ categoryUnion inputs c ↔ ∃ p ∈ inputs, p.1 = c ∧ d ∈ p.2 := by
  have general : ∀ (l : List (ℕ × Finset (List Char))) (acc : Finset (List Char)),
      d ∈ l.foldl (fun acc p => if p.1 = c then acc ∪ p.2 else acc) acc ↔
        d ∈ acc ∨ ∃ p ∈ l, p.1 = c ∧ d ∈ p.2 := by
    intro l
    induction l with
    | nil => intro acc; simp
    | cons q l ih =>
      intro acc
      rw [List.foldl_cons, ih]
      by_cases hq : q.1 = c
      · rw [if_pos hq]
        simp only [Finset.mem_union, List.mem_cons]
        constructor
        · rintro ((h | h) | ⟨p, hp, h1, h2⟩)
          · exact Or.inl h
          · exact Or.inr ⟨q, Or.inl rfl, hq, h⟩
          · exact Or.inr ⟨p, Or.inr hp, h1, h2⟩
        · rintro (h | ⟨p, (rfl | hp), h1, h2⟩)
          · exact Or.inl (Or.inl h)
          · exact Or.inl (Or.inr h2)
          · exact Or.inr ⟨p, hp, h1, h2⟩
      · rw [if_neg hq]
        simp only [List.mem_cons]
        constructor
        · rintro (h | ⟨p, hp, h1, h2⟩)
          · exact Or.inl h
          · exact Or.inr ⟨p, Or.inr hp, h1, h2⟩
        · rintro (h | ⟨p, (rfl | hp), h1, h2⟩)
          · exact Or.inl h
          · exact absurd h1 hq
          · exact Or.inr ⟨p, hp, h1, h2⟩
  rw [show categoryUnion inputs c =
    inputs.foldl (fun acc p => if p.1 = c then acc ∪ p.2 else acc) ∅ from rfl]
  rw [general inputs ∅]
  simp

theorem mem_allDomains {inputs : List (ℕ × Finset (List Char))} {d : List Char} :
    d ∈ allDomains inputs ↔ ∃ p ∈ inputs, d ∈ p.2 := by
  have general : ∀ (l : List (ℕ × Finset (List Char))) (acc : Finset (List Char)),
      d ∈ l.foldl (fun acc p => acc ∪ p.2) acc ↔ d ∈ acc ∨ ∃ p ∈ l, d ∈ p.2 := by
    intro l
    induction l with
    | nil => intro acc; simp
    | cons q l ih =>
      intro acc
      rw [List.foldl_cons, ih]
      simp only [Finset.mem_union, List.mem_cons]
      constructor
      · rintro ((h | h) | ⟨p, hp, h2⟩)
        · exact Or.inl h
        · exact Or.inr ⟨q, Or.inl rfl, h⟩
        · exact Or.inr ⟨p, Or.inr hp, h2⟩
      · rintro (h | ⟨p, (rfl | hp), h2⟩)
        · exact Or.inl (Or.inl h)
        · exact Or.inl (Or.inr h2)
        · exact Or.inr ⟨p, hp, h2⟩
  rw [show allDomains inputs = inputs.foldl (fun acc p => acc ∪ p.2) ∅ from rfl]
  rw [general inputs ∅]
  simp

theorem sum_offDiag_swap (cats : Finset ℕ) (w : ℕ → ℕ → ℕ)
    (hw : ∀ a b, w a b = w b a) :
    ∑ pr ∈ cats.offDiag.filter (fun pr => ¬ pr.1 < pr.2), w pr.1 pr.2 =
      ∑ pr ∈ cats.offDiag.filter (fun pr => pr.1 < pr.2), w pr.1 pr.2 := by
  refine Finset.sum_nbij' Prod.swap Prod.swap ?_ ?_ ?_ ?_ ?_
  · intro a ha
    simp only [Finset.mem_filter, Finset.mem_offDiag] at ha ⊢
    obtain ⟨⟨h1, h2, h3⟩, h4⟩ := ha
    exact ⟨⟨h2, h1, fun he => h3 he.symm⟩, lt_of_le_of_ne (not_lt.mp h4) (fun he => h3 he.symm)⟩
  · intro b hb
    simp only [Finset.mem_filter, Finset.mem_offDiag] at hb ⊢
    obtain ⟨⟨h1, h2, h3⟩, h4⟩ := hb
    exact ⟨⟨h2, h1, fun he => h3 he.symm⟩, not_lt.mpr (le_of_lt h4)⟩
  · intro a _; exact Prod.swap_swap a
  · intro b _; exact Prod.swap_swap b
  · intro a _; exact hw a.1 a.2

theorem duplicateCount_eq_pairs (cats : Finset ℕ) (f : ℕ → Finset (List Char)) :
    duplicateCount cats f =
      ∑ pr ∈ cats.offDiag.filter (fun pr => pr.1 < pr.2),
        (f pr.1 ∩ f pr.2).card := by
  unfold duplicateCount
  have h1 : (∑ c1 ∈ cats, ∑ c2 ∈ cats,
      if c1 ≠ c2 then (f c1 ∩ f c2).card else 0) =
      ∑ pr ∈ cats.offDiag, (f pr.1 ∩ f pr.2).card := by
    rw [← Finset.sum_product cats cats
      (fun pr => if pr.1 ≠ pr.2 then (f pr.1 ∩ f pr.2).card else 0)]
    rw [show cats.offDiag = (cats ×ˢ cats).filter (fun pr => pr.1 ≠ pr.2) from rfl]
    rw [Finset.sum_filter]
  rw [h1]
  rw [← Finset.sum_filter_add_sum_filter_not cats.offDiag
    (fun pr => pr.1 < pr.2) (fun pr => (f pr.1 ∩ f pr.2).card)]
  rw [sum_offDiag_swap cats (fun a b => (f a ∩ f b).card)
    (fun a b => by show (f a ∩ f b).card = (f b ∩ f a).card; rw [Finset.inter_comm])]
  rw [← Nat.two_mul]
  exact Nat.mul_div_cancel_left _ (by norm_num)

theorem card_lt_pairs (T : Finset ℕ) :
    (T.offDiag.filter (fun pr => pr.1 < pr.2)).card = T.card.choose 2 := by
  have hsplit := Finset.filter_card_add_filter_neg_card_eq_card
    (s := T.offDiag) (p := fun pr => pr.1 < pr.2)
  have hswap : (T.offDiag.filter (fun pr => ¬ pr.1 < pr.2)).card =
      (T.offDiag.filter (fun pr => pr.1 < pr.2)).card := by
    rw [Finset.card_eq_sum_ones, Finset.card_eq_sum_ones]
    exact sum_offDiag_swap T (fun _ _ => 1) (fun _ _ => rfl)
  have h2 : 2 * (T.offDiag.filter (fun pr => pr.1 < pr.2)).card =
      T.card * T.card - T.card := by
    rw [Nat.two_mul]
    rw [← Finset.offDiag_card]
    omega
  have h3 : T.card * T.card - T.card = T.card * (T.card - 1) := by
    rw [Nat.mul_sub_one]
  rw [Nat.choose_two_right]
  omega

theorem pairs_sum_eq_choose_sum (cats : Finset ℕ)
    (f : ℕ → Finset (List Char)) (A : Finset (List Char))
    (hsub : ∀ c ∈ cats, f c ⊆ A) :
    ∑ pr ∈ cats.offDiag.filter (fun pr => pr.1 < pr.2), (f pr.1 ∩ f pr.2).card =
      ∑ d ∈ A, ((cats.filter (fun c => d ∈ f c)).card.choose 2) := by
  have hcard : ∀ pr ∈ cats.offDiag.filter (fun pr => pr.1 < pr.2),
      (f pr.1 ∩ f pr.2).card = ∑ d ∈ A, (if d ∈ f pr.1 ∩ f pr.2 then 1 else 0) := by
    intro pr hpr
    simp only [Finset.mem_filter, Finset.mem_offDiag] at hpr
    rw [Finset.sum_ite_mem A (f pr.1 ∩ f pr.2) (fun _ => 1)]
    rw [Finset.inter_eq_right.mpr
      (fun d hd => (hsub pr.1 hpr.1.1) (Finset.mem_inter.mp hd).1)]
    rw [Finset.card_eq_sum_ones]
  rw [Finset.sum_congr rfl hcard, Finset.sum_comm]
  refine Finset.sum_congr rfl ?_
  intro d _
  have hfilter : (cats.offDiag.filter (fun pr => pr.1 < pr.2)).filter
      (fun pr => d ∈ f pr.1 ∩ f pr.2) =
      (cats.filter (fun c => d ∈ f c)).offDiag.filter (fun pr => pr.1 < pr.2) := by
    ext pr
    simp only [Finset.mem_filter, Finset.mem_offDiag, Finset.mem_inter]
    constructor
    · rintro ⟨⟨⟨hc1, hc2, hne⟩, hlt⟩, hd1, hd2⟩
      exact ⟨⟨⟨hc1, hd1⟩, ⟨hc2, hd2⟩, hne⟩, hlt⟩
    · rintro ⟨⟨⟨hc1, hd1⟩, ⟨hc2, hd2⟩, hne⟩, hlt⟩
      exact ⟨⟨⟨hc1, hc2, hne⟩, hlt⟩, hd1, hd2⟩
  calc ∑ pr ∈ cats.offDiag.filter (fun pr => pr.1 < pr.2),
        (if d ∈ f pr.1 ∩ f pr.2 then 1 else 0)
      = ((cats.offDiag.filter (fun pr => pr.1 < pr.2)).filter
          (fun pr => d ∈ f pr.1 ∩ f pr.2)).card := by
        rw [Finset.card_filter]
    _ = ((cats.filter (fun c => d ∈ f c)).offDiag.filter
          (fun pr => pr.1 < pr.2)).card := by rw [hfilter]
    _ = ((cats.filter (fun c => d ∈ f c)).card.choose 2) := card_lt_pairs _

/-- C1: the aggregation step.  The halved ordered-pair double loop equals the
sum of `|set_i ∩ set_j|` over unordered pairs of distinct categories (pairs
with `c1 < c2`), that sum counts a domain lying in `k` categories exactly
`k.choose 2` times, and the global set is the union of the per-category
sets. -/
theorem claim_C1 (inputs : List (ℕ × Finset (List Char))) (cats : Finset ℕ)
    (hcats : ∀ p ∈ inputs, p.1 ∈ cats) :
    duplicateCount cats (categoryUnion inputs) =
      (∑ pr ∈ cats.offDiag.filter (fun pr => pr.1 < pr.2),
        (categoryUnion inputs pr.1 ∩ categoryUnion inputs pr.2).card) ∧
    (∑ pr ∈ cats.offDiag.filter (fun pr => pr.1 < pr.2),
        (categoryUnion inputs pr.1 ∩ categoryUnion inputs pr.2).card) =
      (∑ d ∈ allDomains inputs,
        ((cats.filter (fun c => d ∈ categoryUnion inputs c)).card.choose 2)) ∧
    allDomains inputs = cats.biUnion (categoryUnion inputs) := by
  refine ⟨duplicateCount_eq_pairs cats (categoryUnion inputs), ?_, ?_⟩
  · refine pairs_sum_eq_choose_sum cats (categoryUnion inputs)
      (allDomains inputs) ?_
    intro c _ d hd
    obtain ⟨p, hp, _, hdp⟩ := mem_categoryUnion.mp hd
    exact mem_allDomains.mpr ⟨p, hp, hdp⟩
  · ext d
    rw [mem_allDomains, Finset.mem_biUnion]
    constructor
    · rintro ⟨p, hp, hd⟩
      exact ⟨p.1, hcats p hp, mem_categoryUnion.mpr ⟨p, hp, rfl, hd⟩⟩
    · rintro ⟨c, _, hd⟩
      obtain ⟨p, hp, _, hdp⟩ := mem_categoryUnion.mp hd
      exact ⟨p, hp, hdp⟩

theorem claim_C1_witness :
    duplicateCount {0, 1} (categoryUnion
        [(0, {"x.com".toList, "y.com".toList}),
         (1, {"y.com".toList, "z.com".toList})]) =
      (∑ pr ∈ ({0, 1} : Finset ℕ).offDiag.filter (fun pr => pr.1 < pr.2),
        (categoryUnion [(0, {"x.com".toList, "y.com".toList}),
          (1, {"y.com".toList, "z.com".toList})] pr.1 ∩
         categoryUnion [(0, {"x.com".toList, "y.com".toList}),
          (1, {"y.com".toList, "z.com".toList})] pr.2).card) ∧
    duplicateCount {0, 1} (categoryUnion
        [(0, {"x.com".toList, "y.com".toList}),
         (1, {"y.com".toList, "z.com".toList})]) = 1 ∧
    (allDomains [(0, {"x.com".toList, "y.com".toList}),
        (1, {"y.com".toList, "z.com".toList})]).card = 3 := by
  refine ⟨(claim_C1 [(0, {"x.com".toList, "y.com".toList}),
    (1, {"y.com".toList, "z.com".toList})] {0, 1} (by decide)).1, by decide, by decide⟩

/-- State of the second pass of `optimize_blocklist` (lines 232-241,
272-317): the domain set (modeled as a duplicate-free list), the
`domain_formats` dict (a functional map — later assignments win, as for a
Python dict), the captured metadata lines, the current group, and the
insertion-ordered `groups` dict. -/
structure OptState where
  domains : List (List Char)
  fmts : List Char → Option (List Char)
  metadata : List (List Char)
  currentGroup : Option (List Char)
  groups : List (List Char × List (List Char))

def initState : OptState :=
  { domains := [], fmts := fun _ => none, metadata := [],
    currentGroup := none, groups := [] }

/-- Python `set.add` on the duplicate-free-list model of a set. -/
def insertD (d : List Char) (ds : List (List Char)) : List (List Char) :=
  if d ∈ ds then ds else ds ++ [d]

/-- Key lookup in an association list (Python dict indexing). -/
def lookupG (gs : List (List Char × List (List Char))) (k : List Char) :
    Option (List (List Char)) :=
  match gs with
  | [] => none
  | p :: t => if p.1 = k then some p.2 else lookupG t k

/-- Python `groups[name] = []` (line 297): reset in place when the key
exists (a dict entry keeps its position), append a fresh entry otherwise. -/
def setEmptyG (gs : List (List Char × List (List Char))) (k : List Char) :
    List (List Char × List (List Char)) :=
  if (lookupG gs k).isSome then
    gs.map (fun p => if p.1 = k then (p.1, []) else p)
  else gs ++ [(k, [])]

/-- Python `groups[current_group].append(domain)` (line 317). -/
def appendG (gs : List (List Char × List (List Char))) (k d : List Char) :
    List (List Char × List (List Char)) :=
  gs.map (fun p => if p.1 = k then (p.1, p.2 ++ [d]) else p)

/-- The metadata markers of line 284. -/
def keywordList : List (List Char) :=
  ["title:".toList, "last modified:".toList, "version:".toList,
   "blocked:".toList, "updated:".toList, "count:".toList,
   "description:".toList]

/-- Python `pat in l`: contiguous substring test. -/
def hasSub (pat l : List Char) : Bool :=
  decide (pat <:+: l)

/-- Python `str.lower()` (ASCII: `Char.toLower` lowercases only A-Z). -/
def pyLower (l : List Char) : List Char := l.map Char.toLower

def hasMetaKeyword (l : List Char) : Bool :=
  keywordList.any (fun k => hasSub k (pyLower l))

/-- Group-header shape of lines 290-291: `#[...]` or `# [...]`. -/
def isHeaderShape (l : List Char) : Bool :=
  (decide (l.take 2 = ['#', '[']) && decide (l.getLast? = some ']')) ||
  (decide (l.take 3 = ['#', ' ', '[']) && decide (l.getLast? = some ']'))

/-- Group-name extraction of lines 293-296: `line[3:-1]` when the header is
spelled `# [...]`, else `line[2:-1]`, stripped. -/
def groupName (l : List Char) : List Char :=
  if l.take 3 = ['#', ' ', '['] then pyStrip ((l.drop 3).dropLast)
  else pyStrip ((l.drop 2).dropLast)

/-- A raw line yields a domain when, after stripping, it is neither blank
nor a comment and the extractor returns a token the validator accepts (the
guard of lines 300-308). -/
def yields (raw : List Char) : Option (List Char) :=
  if pyStrip raw = [] ∨ (pyStrip raw).head? = some '#' ∨
      (pyStrip raw).head? = some '!' then none
  else
    match extract_domain_from_line (pyStrip raw) with
    | some d => if is_valid_domain d then some d else none
    | none => none

/-- The comment-line rewrite of lines 277-280: a leading `!` becomes `#`. -/
def convLine (raw : List Char) : List Char :=
  if (pyStrip raw).head? = some '!' then '#' :: (pyStrip raw).tail
  else pyStrip raw

/-- One iteration of the second pass (lines 273-317): comments are rewritten
(`!` to `#`), matched against the metadata markers and the group-header
shape; blank lines are skipped; other lines run the extractor and validator
and update the domain set, the format memory (when `pf`) and the current
group's member list (when `pg` and a non-empty-named group is open).  The
field updates of the comment branch are written field-wise; they are
independent in the source. -/
def processLine (pm pg pf : Bool) (s : OptState) (raw : List Char) : OptState :=
  if (pyStrip raw).head? = some '#' ∨ (pyStrip raw).head? = some '!' then
    { s with
      metadata := if pm ∧ hasMetaKeyword (convLine raw) = true
                  then s.metadata ++ [convLine raw] else s.metadata,
      currentGroup := if pg ∧ isHeaderShape (convLine raw) = true
                      then some (groupName (convLine raw)) else s.currentGroup,
      groups := if pg ∧ isHeaderShape (convLine raw) = true
                then setEmptyG s.groups (groupName (convLine raw)) else s.groups }
  else if pyStrip raw = [] then s
  else
    match extract_domain_from_line (pyStrip raw) with
    | none => s
    | some d =>
      if is_valid_domain d = true then
        { s with
          domains := insertD d s.domains,
          fmts := if pf then
              (fun x => if x = d then some (pyStrip raw) else s.fmts x)
            else s.fmts,
          groups := match s.currentGroup with
            | some g => if pg ∧ g ≠ [] then appendG s.groups g d else s.groups
            | none => s.groups }
      else s

/-- One step of the first analysis pass (lines 250-261): skip blank and
comment lines, otherwise bump the total and whichever of the adblock, hosts
or plain counters the line's shape selects. -/
def firstPassStep (acc : ℕ × ℕ × ℕ × ℕ) (raw : List Char) : ℕ × ℕ × ℕ × ℕ :=
  if pyStrip raw = [] ∨ (pyStrip raw).head? = some '#' ∨
      (pyStrip raw).head? = some '!' then acc
  else
    (acc.1 + 1,
     (if (adblockMatch (pyStrip raw)).isSome then acc.2.1 + 1 else acc.2.1),
     (if ¬ (adblockMatch (pyStrip raw)).isSome ∧
          (ipDomainMatch (pyStrip raw)).isSome
      then acc.2.2.1 + 1 else acc.2.2.1),
     (if ¬ (adblockMatch (pyStrip raw)).isSome ∧
          ¬ (ipDomainMatch (pyStrip raw)).isSome ∧
          ' ' ∉ pyStrip raw ∧ '/' ∉ pyStrip raw
      then acc.2.2.2 + 1 else acc.2.2.2))

/-- The first analysis pass (line 250) samples the first 200 RAW lines
(`lines[:200]`) and returns (total, adblock, hosts, plain) counts of the
non-comment lines among them. -/
def firstPass (lines : List (List Char)) : ℕ × ℕ × ℕ × ℕ :=
  (lines.take 200).foldl firstPassStep (0, 0, 0, 0)

/-- Lines 264-268: the list is adblock-style when more than half of the
sampled non-comment lines match the AdBlock pattern (`count/total > 0.5`
compared exactly: with at most 200 samples the float quotient is exact
enough that it exceeds 0.5 iff `2*count > total`). -/
def detectAdblockStyle (lines : List (List Char)) : Bool :=
  decide (0 < (firstPass lines).1 ∧ (firstPass lines).1 < 2 * (firstPass lines).2.1)

/-- Lines 264-270: the effective preserve_format flag after detection — the
caller's flag, or an adblock majority, or a hosts majority. -/
def detectPreserveFormat (pf0 : Bool) (lines : List (List Char)) : Bool :=
  pf0 || detectAdblockStyle lines ||
  decide (0 < (firstPass lines).1 ∧
    (firstPass lines).1 < 2 * (firstPass lines).2.2.1)

/-- Decimal digits of a number (Python `str(n)` / f-string interpolation). -/
def natReprGo : ℕ → ℕ → List Char → List Char
  | 0, _, acc => acc
  | fuel + 1, n, acc =>
    if n = 0 then acc
    else natReprGo fuel (n / 10) (Char.ofNat (48 + n % 10) :: acc)

def natRepr (n : ℕ) : List Char :=
  if n = 0 then ['0'] else natReprGo (n + 1) n []

/-- Render one domain inside a group or ungrouped section (lines 342-345,
357-360): remembered original line when preserving format, else a hosts
line. -/
def fmtLineGrp (pf : Bool) (fmts : List Char → Option (List Char))
    (d : List Char) : List Char :=
  match pf, fmts d with
  | true, some l => l
  | _, _ => "0.0.0.0 ".toList ++ d

/-- Render one domain in the no-groups path (lines 363-370): remembered
line, else AdBlock syntax when adblock-style was detected, else a hosts
line. -/
def fmtLinePlain (pf adblockStyle : Bool)
    (fmts : List Char → Option (List Char)) (d : List Char) : List Char :=
  match pf, fmts d with
  | true, some l => l
  | _, _ =>
    if adblockStyle then '|' :: '|' :: (d ++ ['^'])
    else "0.0.0.0 ".toList ++ d

/-- Python `sorted`, as an insertion sort with the code-point order; the
claims depend only on its membership behaviour. -/
def pyStrLe : List Char → List Char → Bool
  | [], _ => true
  | _ :: _, [] => false
  | a :: xs, b :: ys => if a = b then pyStrLe xs ys else decide (a.toNat < b.toNat)

def insSorted (d : List Char) : List (List Char) → List (List Char)
  | [] => [d]
  | x :: xs => if pyStrLe d x then d :: x :: xs else x :: insSorted d xs

def pySorted (l : List (List Char)) : List (List Char) :=
  l.foldr insSorted []

/-- One group's section (lines 336-346): skipped when no member survives the
domain-set filter, else a `#[name]` header, the sorted rendered members, and
a blank separator. -/
def groupSection (pf : Bool) (fmts : List Char → Option (List Char))
    (domains : List (List Char)) (p : List Char × List (List Char)) :
    List (List Char) :=
  if p.2.filter (fun d => decide (d ∈ domains)) = [] then []
  else ('#' :: '[' :: (p.1 ++ [']'])) ::
    ((pySorted (p.2.filter (fun d => decide (d ∈ domains)))).map
      (fmtLineGrp pf fmts) ++ [[]])

def concatAll (ls : List (List (List Char))) : List (List Char) :=
  ls.foldr (· ++ ·) []

/-- Domains claimed by some group (lines 349-351). -/
def allGroupedL (domains : List (List Char))
    (gs : List (List Char × List (List Char))) : List (List Char) :=
  gs.foldl (fun acc p => acc ++ p.2.filter (fun d => decide (d ∈ domains))) []

/-- The ungrouped section (lines 353-360). -/
def ungroupedSection (pf : Bool) (fmts : List Char → Option (List Char))
    (domains : List (List Char))
    (gs : List (List Char × List (List Char))) : List (List Char) :=
  if domains.filter (fun d => decide (d ∉ allGroupedL domains gs)) = [] then []
  else "#[ungrouped]".toList ::
    (pySorted (domains.filter (fun d => decide (d ∉ allGroupedL domains gs)))).map
      (fmtLineGrp pf fmts)

/-- Serialization (lines 319-371): metadata header (original when preserved
and present, else synthetic lines with the caller's timestamp), the domain
count line, a blank line, then either the group sections followed by the
ungrouped section, or the full sorted domain list. -/
def buildOutput (pm pg pf adblockStyle : Bool) (now : List Char)
    (st : OptState) : List (List Char) :=
  (if pm ∧ st.metadata ≠ [] then st.metadata
   else ["# Pi-hole optimized blocklist".toList,
         "# Last updated: ".toList ++ now]) ++
  [("# Total domains: ".toList ++ natRepr st.domains.length), []] ++
  (if pg ∧ st.groups ≠ [] then
    concatAll (st.groups.map (groupSection pf st.fmts st.domains)) ++
      ungroupedSection pf st.fmts st.domains st.groups
   else (pySorted st.domains).map (fmtLinePlain pf adblockStyle st.fmts))

/-- The whole normalizer body — the `try` block of `optimize_blocklist`
(lines 227-372).  `datetime.now()` is passed in as `now`. -/
def optimizeCore (content : List Char) (pm pg pf0 : Bool) (now : List Char) :
    List Char × List (List Char) :=
  (joinNl (buildOutput pm pg (detectPreserveFormat pf0 (pySplitlines content))
      (detectAdblockStyle (pySplitlines content)) now
      ((pySplitlines content).foldl
        (processLine pm pg (detectPreserveFormat pf0 (pySplitlines content)))
        initState)),
   ((pySplitlines content).foldl
      (processLine pm pg (detectPreserveFormat pf0 (pySplitlines content)))
      initState).domains)

/-- The catch-all boundary of `optimize_blocklist` (lines 227, 373-375): a
result of the body is returned as is; any internal failure is downgraded to
the one-line error placeholder with an empty domain set, and the function
always returns normally. -/
def optimize_blocklist {ε : Type}
    (r : Except ε (List Char × List (List Char))) :
    List Char × List (List Char) :=
  match r with
  | Except.ok v => v
  | Except.error _ => ("# Error processing blocklist".toList, [])

theorem lookupG_map_self (gs : List (List Char × List (List Char)))
    (g : List Char) (f : List (List Char) → List (List Char)) :
    lookupG (gs.map (fun p => if p.1 = g then (p.1, f p.2) else p)) g =
      (lookupG gs g).map f := by
  induction gs with
  | nil => rfl
  | cons p t ih =>
    rw [List.map_cons]
    by_cases hp : p.1 = g
    · rw [if_pos hp]
      unfold lookupG
      rw [if_pos hp, if_pos hp]
      rfl
    · rw [if_neg hp]
      unfold lookupG
      rw [if_neg hp, if_neg hp]
      exact ih

theorem lookupG_map_ne {gs : List (List Char × List (List Char))}
    {g k : List Char} (f : List (List Char) → List (List Char)) (h : k ≠ g) :
    lookupG (gs.map (fun p => if p.1 = g then (p.1, f p.2) else p)) k =
      lookupG gs k := by
  induction gs with
  | nil => rfl
  | cons p t ih =>
    rw [List.map_cons]
    by_cases hp : p.1 = g
    · rw [if_pos hp]
      unfold lookupG
      have hne : ¬ p.1 = k := by rw [hp]; exact fun he => h he.symm
      rw [if_neg hne, if_neg hne]
      exact ih
    · rw [if_neg hp]
      unfold lookupG
      by_cases hp2 : p.1 = k
      · rw [if_pos hp2, if_pos hp2]
      · rw [if_neg hp2, if_neg hp2]
        exact ih

theorem lookupG_concat (gs : List (List Char × List (List Char)))
    (q : List Char × List (List Char)) (k : List Char) :
    lookupG (gs ++ [q]) k =
      (match lookupG gs k with
       | some v => some v
       | none => lookupG [q] k) := by
  induction gs with
  | nil => rfl
  | cons p t ih =>
    rw [List.cons_append]
    show lookupG (p :: (t ++ [q])) k = _
    unfold lookupG
    by_cases hp : p.1 = k
    · rw [if_pos hp, if_pos hp]
    · rw [if_neg hp, if_neg hp]
      exact ih

theorem lookupG_appendG_self {gs : List (List Char × List (List Char))}
    {g d : List Char} {ms : List (List Char)} (h : lookupG gs g = some ms) :
    lookupG (appendG gs g d) g = some (ms ++ [d]) := by
  have h2 := lookupG_map_self gs g (fun v => v ++ [d])
  rw [h] at h2
  exact h2

theorem lookupG_appendG_ne {gs : List (List Char × List (List Char))}
    {g g2 d : List Char} (h : g2 ≠ g) :
    lookupG (appendG gs g d) g2 = lookupG gs g2 :=
  @lookupG_map_ne gs g g2 (fun v => v ++ [d]) h

theorem lookupG_setEmptyG_self (gs : List (List Char × List (List Char)))
    (g : List Char) : lookupG (setEmptyG gs g) g = some [] := by
  unfold setEmptyG
  by_cases hs : (lookupG gs g).isSome
  · rw [if_pos hs]
    have h2 := lookupG_map_self gs g (fun _ => ([] : List (List Char)))
    rcases hl : lookupG gs g with _ | v
    · rw [hl] at hs; simp at hs
    · rw [hl] at h2
      exact h2
  · rw [if_neg hs]
    have hn : lookupG gs g = none := by
      rcases hl : lookupG gs g with _ | v
      · rfl
      · rw [hl] at hs; simp at hs
    rw [lookupG_concat, hn]
    show lookupG [(g, [])] g = some []
    unfold lookupG
    rw [if_pos rfl]

theorem lookupG_setEmptyG_ne {gs : List (List Char × List (List Char))}
    {g g2 : List Char} (h : g2 ≠ g) :
    lookupG (setEmptyG gs g) g2 = lookupG gs g2 := by
  unfold setEmptyG
  by_cases hs : (lookupG gs g).isSome
  · rw [if_pos hs]
    exact @lookupG_map_ne gs g g2 (fun _ => ([] : List (List Char))) h
  · rw [if_neg hs]
    rw [lookupG_concat]
    rcases hl : lookupG gs g2 with _ | v
    · show lookupG [(g, [])] g2 = none
      unfold lookupG
      rw [if_neg (fun he => h he.symm)]
      rfl
    · rfl

theorem processLine_comment {pm pg pf : Bool} {s : OptState} {raw : List Char}
    (h : (pyStrip raw).head? = some '#' ∨ (pyStrip raw).head? = some '!') :
    processLine pm pg pf s raw =
      { s with
        metadata := if pm ∧ hasMetaKeyword (convLine raw) = true
                    then s.metadata ++ [convLine raw] else s.metadata,
        currentGroup := if pg ∧ isHeaderShape (convLine raw) = true
                        then some (groupName (convLine raw)) else s.currentGroup,
        groups := if pg ∧ isHeaderShape (convLine raw) = true
                  then setEmptyG s.groups (groupName (convLine raw))
                  else s.groups } := by
  unfold processLine
  rw [if_pos h]

theorem yields_of_comment {raw : List Char}
    (h : (pyStrip raw).head? = some '#' ∨ (pyStrip raw).head? = some '!') :
    yields raw = none := by
  unfold yields
  rw [if_pos (Or.inr h)]

theorem processLine_of_yields {pm pg pf : Bool} {s : OptState}
    {raw d : List Char} (h : yields raw = some d) :
    processLine pm pg pf s raw =
      { s with
        domains := insertD d s.domains,
        fmts := if pf then
            (fun x => if x = d then some (pyStrip raw) else s.fmts x)
          else s.fmts,
        groups := match s.currentGroup with
          | some g => if pg ∧ g ≠ [] then appendG s.groups g d else s.groups
          | none => s.groups } := by
  unfold yields at h
  by_cases h1 : pyStrip raw = [] ∨ (pyStrip raw).head? = some '#' ∨
      (pyStrip raw).head? = some '!'
  · rw [if_pos h1] at h; simp at h
  · rw [if_neg h1] at h
    unfold processLine
    rw [if_neg (fun hc => h1 (Or.inr hc))]
    rw [if_neg (fun hb => h1 (Or.inl hb))]
    rcases he : extract_domain_from_line (pyStrip raw) with _ | d2
    · rw [he] at h; simp at h
    · rw [he] at h
      dsimp only at h ⊢
      by_cases hv : is_valid_domain d2 = true
      · rw [if_pos hv] at h
        obtain rfl : d2 = d := by simpa using h
        rw [if_pos hv]
      · rw [if_neg hv] at h; simp at h

theorem processLine_of_no_yield {pm pg pf : Bool} {s : OptState}
    {raw : List Char}
    (hc : ¬ ((pyStrip raw).head? = some '#' ∨ (pyStrip raw).head? = some '!'))
    (h : yields raw = none) : processLine pm pg pf s raw = s := by
  unfold processLine
  rw [if_neg hc]
  by_cases hb : pyStrip raw = []
  · rw [if_pos hb]
  · rw [if_neg hb]
    unfold yields at h
    rw [if_neg (fun hor => hor.elim hb hc)] at h
    rcases he : extract_domain_from_line (pyStrip raw) with _ | d
    · rfl
    · rw [he] at h
      dsimp only at h ⊢
      by_cases hv : is_valid_domain d = true
      · rw [if_pos hv] at h; simp at h
      · rw [if_neg hv]

theorem foldl_fmts_no_yield {pm pg pf : Bool} {d : List Char} :
    ∀ (ls : List (List Char)) (s : OptState),
    (∀ l ∈ ls, yields l ≠ some d) →
    (ls.foldl (processLine pm pg pf) s).fmts d = s.fmts d := by
  intro ls
  induction ls with
  | nil => intro s _; rfl
  | cons l ls ih =>
    intro s hno
    rw [List.foldl_cons]
    rw [ih _ (fun x hx => hno x (by simp [hx]))]
    by_cases hc : (pyStrip l).head? = some '#' ∨ (pyStrip l).head? = some '!'
    · rw [processLine_comment hc]
    · rcases hy : yields l with _ | d2
      · rw [processLine_of_no_yield hc hy]
      · rw [processLine_of_yields hy]
        dsimp only
        by_cases hpf : pf = true
        · rw [if_pos hpf]
          have hne : ¬ d = d2 := by
            intro he
            exact hno l (by simp) (by rw [hy, he])
          rw [if_neg hne]
        · rw [if_neg hpf]

/-- C3 (amended): with preserveFormat in effect, the original-format line
remembered for a domain is the line of its LAST yielding occurrence — a
later occurrence overwrites the stored line, as Python dict assignment does
— and the stored text is the stripped line. -/
theorem claim_C3 (pm pg : Bool) (pre post : List (List Char)) (l d : List Char)
    (hl : yields l = some d) (hpost : ∀ x ∈ post, yields x ≠ some d) :
    ((pre ++ l :: post).foldl (processLine pm pg true) initState).fmts d =
      some (pyStrip l) := by
  rw [List.foldl_append, List.foldl_cons]
  rw [foldl_fmts_no_yield post _ hpost]
  rw [processLine_of_yields hl]
  simp

/-- C3 counterexample: the domain `x.com` is extracted from the hosts-format
line first and from the AdBlock-format line second; the remembered line is
the second, not the first. -/
theorem claim_C3_counterexample :
    ((["0.0.0.0 x.com".toList, "||x.com^".toList]).foldl
        (processLine false false true) initState).fmts ("x.com".toList) =
      some ("||x.com^".toList) ∧
    ((["0.0.0.0 x.com".toList, "||x.com^".toList]).foldl
        (processLine false false true) initState).fmts ("x.com".toList) ≠
      some ("0.0.0.0 x.com".toList) := by
  constructor
  · decide
  · decide

theorem claim_C3_witness :
    (([] ++ "0.0.0.0 x.com".toList :: ["# c".toList]).foldl
        (processLine false false true) initState).fmts ("x.com".toList) =
      some (pyStrip ("0.0.0.0 x.com".toList)) :=
  claim_C3 false false [] ["# c".toList] ("0.0.0.0 x.com".toList)
    ("x.com".toList) (by decide) (by decide)

/-- C8 (amended): when a line yields a valid domain while a non-empty-named
group `g` is current, the domain is appended to `g`'s member list and every
other group's member list is unchanged — but nothing removes the domain from
lists it already occurs in, so a domain declared under several headers
appears in the member lists of all of them (deduplication happens only in
the domain set). -/
theorem claim_C8 (pm pf : Bool) (s : OptState) (raw g d : List Char)
    (ms : List (List Char)) (hcur : s.currentGroup = some g) (hg : g ≠ [])
    (hy : yields raw = some d) (hms : lookupG s.groups g = some ms) :
    lookupG (processLine pm true pf s raw).groups g = some (ms ++ [d]) ∧
    (∀ g2, g2 ≠ g →
      lookupG (processLine pm true pf s raw).groups g2 = lookupG s.groups g2) := by
  rw [processLine_of_yields hy]
  dsimp only
  rw [hcur]
  dsimp only
  rw [if_pos ⟨rfl, hg⟩]
  exact ⟨lookupG_appendG_self hms, fun g2 hne => lookupG_appendG_ne hne⟩

/-- C8 counterexample: `x.com` is declared under `#[A]` and again under
`#[B]`; it ends up in the member lists of both groups. -/
theorem claim_C8_counterexample :
    lookupG ((["#[A]".toList, "0.0.0.0 x.com".toList, "#[B]".toList,
        "0.0.0.0 x.com".toList].foldl (processLine false true false)
        initState).groups) ("A".toList) = some ["x.com".toList] ∧
    lookupG ((["#[A]".toList, "0.0.0.0 x.com".toList, "#[B]".toList,
        "0.0.0.0 x.com".toList].foldl (processLine false true false)
        initState).groups) ("B".toList) = some ["x.com".toList] := by
  constructor
  · decide
  · decide

theorem claim_C8_witness :
    lookupG (processLine false true false
        ⟨[], fun _ => none, [], some ("A".toList), [("A".toList, [])]⟩
        ("0.0.0.0 x.com".toList)).groups ("A".toList) =
      some ([] ++ ["x.com".toList]) :=
  (claim_C8 false false
    ⟨[], fun _ => none, [], some ("A".toList), [("A".toList, [])]⟩
    ("0.0.0.0 x.com".toList) ("A".toList) ("x.com".toList) []
    rfl (by decide) (by decide) rfl).1

/-- The group name a line would open (lines 288-297): the line must be a
comment and, after the `!`-to-`#` rewrite, have the header shape. -/
def headerNameOf (raw : List Char) : Option (List Char) :=
  if (pyStrip raw).head? = some '#' ∨ (pyStrip raw).head? = some '!' then
    (if isHeaderShape (convLine raw) = true
     then some (groupName (convLine raw)) else none)
  else none

def isHeaderLine (raw : List Char) : Bool := (headerNameOf raw).isSome

theorem headerNameOf_some {raw name : List Char}
    (h : headerNameOf raw = some name) :
    ((pyStrip raw).head? = some '#' ∨ (pyStrip raw).head? = some '!') ∧
    isHeaderShape (convLine raw) = true ∧ groupName (convLine raw) = name := by
  unfold headerNameOf at h
  by_cases h1 : (pyStrip raw).head? = some '#' ∨ (pyStrip raw).head? = some '!'
  · rw [if_pos h1] at h
    by_cases h2 : isHeaderShape (convLine raw) = true
    · rw [if_pos h2] at h
      exact ⟨h1, h2, by simpa using h⟩
    · rw [if_neg h2] at h; simp at h
  · rw [if_neg h1] at h; simp at h

theorem headerNameOf_none_comment {raw : List Char}
    (hc : (pyStrip raw).head? = some '#' ∨ (pyStrip raw).head? = some '!')
    (h : headerNameOf raw = none) :
    ¬ isHeaderShape (convLine raw) = true := by
  unfold headerNameOf at h
  rw [if_pos hc] at h
  by_cases h2 : isHeaderShape (convLine raw) = true
  · rw [if_pos h2] at h; simp at h
  · exact h2

theorem walk_other {pm pf : Bool} {g : List Char} :
    ∀ (rest : List (List Char)) (s : OptState),
    (∀ g2, s.currentGroup = some g2 → g2 ≠ g) →
    (∀ l ∈ rest, headerNameOf l ≠ some g) →
    lookupG ((rest.foldl (processLine pm true pf) s)).groups g =
      lookupG s.groups g := by
  intro rest
  induction rest with
  | nil => intro s _ _; rfl
  | cons l rest ih =>
    intro s hcur hno
    rw [List.foldl_cons]
    by_cases hc : (pyStrip l).head? = some '#' ∨ (pyStrip l).head? = some '!'
    · rw [processLine_comment hc]
      rcases hh : headerNameOf l with _ | name
      · have hns := headerNameOf_none_comment hc hh
        rw [ih _ (by intro g2 h2; exact hcur g2 (by simpa [hns] using h2))
          (fun x hx => hno x (by simp [hx]))]
        dsimp only
        rw [if_neg (fun hand => hns hand.2)]
      · obtain ⟨-, hsh, hgn⟩ := headerNameOf_some hh
        have hne : name ≠ g := by
          intro he
          exact hno l (by simp) (by rw [hh, he])
        rw [ih _ ?_ (fun x hx => hno x (by simp [hx]))]
        · dsimp only
          rw [if_pos ⟨rfl, hsh⟩, hgn]
          exact lookupG_setEmptyG_ne hne.symm
        · intro g2 h2
          dsimp only at h2
          rw [if_pos ⟨rfl, hsh⟩, hgn] at h2
          obtain rfl : name = g2 := by simpa using h2
          exact hne
    · rcases hy : yields l with _ | d
      · rw [processLine_of_no_yield hc hy]
        exact ih s hcur (fun x hx => hno x (by simp [hx]))
      · rw [processLine_of_yields hy]
        rcases hcg : s.currentGroup with _ | g2
        · rw [ih _ ?_ (fun x hx => hno x (by simp [hx]))]
          · intro g3 h3
            dsimp only at h3
            simp at h3
        · have hg2 : g2 ≠ g := hcur g2 hcg
          rw [ih _ ?_ (fun x hx => hno x (by simp [hx]))]
          · dsimp only
            by_cases hne : g2 ≠ []
            · rw [if_pos ⟨rfl, hne⟩]
              exact lookupG_appendG_ne hg2.symm
            · rw [if_neg (fun hand => hne hand.2)]
          · intro g3 h3
            dsimp only at h3
            obtain rfl : g2 = g3 := by simpa using h3
            exact hg2

theorem walk_current {pm pf : Bool} {g : List Char} (hg : g ≠ []) :
    ∀ (rest : List (List Char)) (s : OptState) (ms : List (List Char)),
    s.currentGroup = some g → lookupG s.groups g = some ms →
    (∀ l ∈ rest, headerNameOf l ≠ some g) →
    lookupG ((rest.foldl (processLine pm true pf) s)).groups g =
      some (ms ++
        (rest.takeWhile (fun l => ! isHeaderLine l)).filterMap yields) := by
  intro rest
  induction rest with
  | nil => intro s ms hcur hms _; simpa using hms
  | cons l rest ih =>
    intro s ms hcur hms hno
    rw [List.foldl_cons]
    rcases hh : headerNameOf l with _ | name
    · have htw : (l :: rest).takeWhile (fun l => ! isHeaderLine l) =
          l :: rest.takeWhile (fun l => ! isHeaderLine l) := by
        rw [List.takeWhile_cons, if_pos (by simp [isHeaderLine, hh])]
      rw [htw]
      by_cases hc : (pyStrip l).head? = some '#' ∨ (pyStrip l).head? = some '!'
      · have hns := headerNameOf_none_comment hc hh
        rw [processLine_comment hc]
        simp only [List.filterMap_cons, yields_of_comment hc]
        refine ih _ ms ?_ ?_ (fun x hx => hno x (by simp [hx]))
        · dsimp only
          rw [if_neg (fun hand => hns hand.2)]
          exact hcur
        · dsimp only
          rw [if_neg (fun hand => hns hand.2)]
          exact hms
      · rcases hy : yields l with _ | d
        · rw [processLine_of_no_yield hc hy]
          simp only [List.filterMap_cons, hy]
          exact ih _ ms hcur hms (fun x hx => hno x (by simp [hx]))
        · rw [processLine_of_yields hy]
          simp only [List.filterMap_cons, hy]
          rw [ih _ (ms ++ [d]) ?_ ?_ (fun x hx => hno x (by simp [hx]))]
          · simp
          · exact hcur
          · dsimp only
            rw [hcur]
            dsimp only
            rw [if_pos ⟨by trivial, hg⟩]
            exact lookupG_appendG_self hms
    · have htw : (l :: rest).takeWhile (fun l => ! isHeaderLine l) = [] := by
        rw [List.takeWhile_cons, if_neg (by simp [isHeaderLine, hh])]
      rw [htw]
      obtain ⟨hc, hsh, hgn⟩ := headerNameOf_some hh
      have hne : name ≠ g := by
        intro he
        exact hno l (by simp) (by rw [hh, he])
      rw [processLine_comment hc]
      rw [walk_other rest _ ?_ (fun x hx => hno x (by simp [hx]))]
      · dsimp only
        rw [if_pos ⟨rfl, hsh⟩, hgn, lookupG_setEmptyG_ne hne.symm, hms]
        simp
      · intro g2 h2
        dsimp only at h2
        rw [if_pos ⟨rfl, hsh⟩, hgn] at h2
        obtain rfl : name = g2 := by simpa using h2
        exact hne

/-- C10: a group header whose name was already opened earlier resets that
group's member list to empty (Python `groups[name] = []` runs on every
header), so only domains yielded after the LAST occurrence of the header —
up to the next header line — remain in the group's member list. -/
theorem claim_C10 (pm pf : Bool) (pre rest : List (List Char)) (g : List Char)
    (hg1 : pyStrip g = g) (hg2 : g ≠ [])
    (hrest : ∀ l ∈ rest, headerNameOf l ≠ some g) :
    lookupG ((pre ++ ('#' :: '[' :: (g ++ [']'])) :: rest).foldl
        (processLine pm true pf) initState).groups g =
      some ((rest.takeWhile (fun l => ! isHeaderLine l)).filterMap yields) := by
  rw [List.foldl_append, List.foldl_cons]
  have hcat : '#' :: '[' :: (g ++ [']']) = ('#' :: '[' :: g) ++ [']'] := by simp
  have hlast : ('#' :: '[' :: (g ++ [']'])).getLast? = some ']' := by
    rw [hcat]; exact List.getLast?_concat _
  have hstrip : pyStrip ('#' :: '[' :: (g ++ [']'])) =
      '#' :: '[' :: (g ++ [']']) := by
    refine pyStrip_eq_self ?_ ?_
    · intro a ha
      obtain rfl : a = '#' := by simpa using ha.symm
      decide
    · intro a ha
      rw [hlast] at ha
      obtain rfl : a = ']' := by simpa using ha.symm
      decide
  have hcom : (pyStrip ('#' :: '[' :: (g ++ [']']))).head? = some '#' ∨
      (pyStrip ('#' :: '[' :: (g ++ [']']))).head? = some '!' := by
    rw [hstrip]; exact Or.inl rfl
  have hconv : convLine ('#' :: '[' :: (g ++ [']'])) =
      '#' :: '[' :: (g ++ [']']) := by
    unfold convLine
    rw [hstrip]
    rfl
  have hshape : isHeaderShape ('#' :: '[' :: (g ++ [']'])) = true := by
    unfold isHeaderShape
    rw [hlast]
    simp
  have hname : groupName ('#' :: '[' :: (g ++ [']'])) = g := by
    unfold groupName
    rw [if_neg (by simp [List.take_succ_cons])]
    rw [show ('#' :: '[' :: (g ++ [']'])).drop 2 = g ++ [']'] from rfl]
    rw [List.dropLast_concat, hg1]
  rw [processLine_comment hcom]
  rw [walk_current hg2 rest _ [] ?_ ?_ hrest]
  · simp
  · dsimp only
    rw [hconv, if_pos ⟨rfl, hshape⟩, hname]
  · dsimp only
    rw [hconv, if_pos ⟨rfl, hshape⟩, hname]
    exact lookupG_setEmptyG_self _ g

theorem claim_C10_witness :
    lookupG ((["#[A]".toList, "0.0.0.0 old.com".toList] ++
        ('#' :: '[' :: ("A".toList ++ [']'])) ::
        ["0.0.0.0 x.com".toList, "# note".toList]).foldl
        (processLine true true false) initState).groups ("A".toList) =
      some ["x.com".toList] := by
  have h := claim_C10 true false ["#[A]".toList, "0.0.0.0 old.com".toList]
    ["0.0.0.0 x.com".toList, "# note".toList] ("A".toList)
    (by decide) (by decide) (by decide)
  exact h.trans (by decide)

/-- C6 (amended): format detection samples exactly the first 200 RAW lines
(`lines[:200]`) — comment and blank lines among them consume the sample
budget — so nothing beyond the first 200 raw lines ever influences the
counts, the adblock-style decision, or the effective preserve-format flag. -/
theorem claim_C6 (pf0 : Bool) (ls ex : List (List Char))
    (h : 200 ≤ ls.length) :
    firstPass (ls ++ ex) = firstPass ls ∧
    detectAdblockStyle (ls ++ ex) = detectAdblockStyle ls ∧
    detectPreserveFormat pf0 (ls ++ ex) = detectPreserveFormat pf0 ls := by
  have hfp : firstPass (ls ++ ex) = firstPass ls := by
    unfold firstPass
    rw [List.take_append_of_le_length h]
  refine ⟨hfp, ?_, ?_⟩
  · unfold detectAdblockStyle
    rw [hfp]
  · unfold detectPreserveFormat detectAdblockStyle
    rw [hfp]

set_option maxRecDepth 8000 in
/-- C6 counterexample: an input of 200 comment lines followed by three
AdBlock-style lines.  All of its non-comment lines are AdBlock-style (so the
claim predicts an adblock-style majority), but the sample window is consumed
by the comments: nothing is counted and the detection yields false. -/
theorem claim_C6_counterexample :
    detectAdblockStyle (List.replicate 200 ("# comment".toList) ++
      ["||ads.one.com^".toList, "||ads.two.com^".toList,
       "||ads.three.com^".toList]) = false ∧
    firstPass (List.replicate 200 ("# comment".toList) ++
      ["||ads.one.com^".toList, "||ads.two.com^".toList,
       "||ads.three.com^".toList]) = (0, 0, 0, 0) ∧
    detectAdblockStyle ["||ads.one.com^".toList, "||ads.two.com^".toList,
       "||ads.three.com^".toList] = true := by
  refine ⟨?_, ?_, ?_⟩
  · decide
  · decide
  · decide

set_option maxRecDepth 8000 in
theorem claim_C6_witness :
    detectAdblockStyle (List.replicate 200 ("# c".toList) ++
        ["||x.com^".toList]) =
      detectAdblockStyle (List.replicate 200 ("# c".toList)) :=
  (claim_C6 false (List.replicate 200 ("# c".toList)) ["||x.com^".toList]
    (by simp)).2.1

/-- C7: the catch-all boundary of the normalizer.  On any internal failure
the function still returns normally — the placeholder text (a single line,
containing no newline) with an EMPTY domain set — and on success it returns
the body's result unchanged, so one source's normalization failure cannot
propagate to its caller or abort other sources. -/
theorem claim_C7 (e : String) :
    optimize_blocklist (Except.error e) =
      ("# Error processing blocklist".toList, ([] : List (List Char))) ∧
    '\n' ∉ ("# Error processing blocklist".toList) ∧
    (∀ v : List Char × List (List Char),
      optimize_blocklist (Except.ok (ε := String) v) = v) :=
  ⟨rfl, by decide, fun _ => rfl⟩

theorem validLabel_chars {l : List Char} (h : validLabel l = true) :
    ∀ c ∈ l, isLabelChar c = true := by
  unfold validLabel at h
  simp only [Bool.and_eq_true] at h
  intro c hc
  exact List.all_eq_true.mp h.1.2 c hc

theorem pMatchAux_chars :
    ∀ (s acc : List Char), pMatchAux acc s = true →
    (∀ c ∈ acc, isLabelChar c = true) ∧
    (∀ c ∈ s, isLabelChar c = true ∨ c = '.') := by
  intro s
  induction s with
  | nil =>
    intro acc h
    refine ⟨?_, by simp⟩
    intro c hc
    unfold pMatchAux validTld at h
    simp only [Bool.and_eq_true] at h
    exact validLabel_chars h.1 c (by simpa using hc)
  | cons c0 cs ih =>
    intro acc h
    unfold pMatchAux at h
    by_cases hc0 : c0 = '.'
    · rw [if_pos hc0] at h
      simp only [Bool.and_eq_true] at h
      obtain ⟨h1, h2⟩ := h
      obtain ⟨-, hcs⟩ := ih [] h2
      refine ⟨?_, ?_⟩
      · intro c hc
        exact validLabel_chars h1 c (by simpa using hc)
      · intro c hc
        rcases List.mem_cons.mp hc with rfl | hc
        · exact Or.inr hc0
        · exact hcs c hc
    · rw [if_neg hc0] at h
      obtain ⟨hacc, hcs⟩ := ih (c0 :: acc) h
      refine ⟨fun c hc => hacc c (by simp [hc]), ?_⟩
      intro c hc
      rcases List.mem_cons.mp hc with rfl | hc
      · exact Or.inl (hacc c (by simp))
      · exact hcs c hc

/-- Characters a newline-free token accepted by the validator can contain:
label characters (ASCII alphanumerics and hyphen), dots, and the wildcard
star.  The newline-freedom hypothesis rules out the trailing newline the
`$` anchor tolerates; every line the program validates is newline-free,
coming from `splitlines`. -/
theorem is_valid_domain_chars {d : List Char} (h : is_valid_domain d = true)
    (hnl : '\n' ∉ d) :
    ∀ c ∈ d, isLabelChar c = true ∨ c = '.' ∨ c = '*' := by
  unfold is_valid_domain at h
  split at h
  · simp at h
  · split at h
    · simp at h
    · by_cases hw : d.take 2 = ['*', '.']
      · rw [if_pos hw] at h
        have hcore : domainPatternCore (d.drop 2) = true := by
          unfold domainPatternMatch at h
          rw [Bool.or_eq_true] at h
          rcases h with h | h
          · exact h
          · rw [Bool.and_eq_true] at h
            exact absurd (List.drop_subset 2 d
              (List.mem_of_getLast?_eq_some (of_decide_eq_true h.1))) hnl
        unfold domainPatternCore at hcore
        rw [Bool.and_eq_true] at hcore
        have hm := hcore.2
        intro c hc
        have hsplit : d = d.take 2 ++ d.drop 2 := (List.take_append_drop 2 d).symm
        rw [hsplit] at hc
        rcases List.mem_append.mp hc with hc | hc
        · rw [hw] at hc
          rcases List.mem_cons.mp hc with rfl | hc
          · exact Or.inr (Or.inr rfl)
          · rcases List.mem_cons.mp hc with rfl | hc
            · exact Or.inr (Or.inl rfl)
            · simp at hc
        · rcases (pMatchAux_chars _ [] hm).2 c hc with h | h
          · exact Or.inl h
          · exact Or.inr (Or.inl h)
      · rw [if_neg hw] at h
        have hcore : domainPatternCore d = true := by
          unfold domainPatternMatch at h
          rw [Bool.or_eq_true] at h
          rcases h with h | h
          · exact h
          · rw [Bool.and_eq_true] at h
            exact absurd
              (List.mem_of_getLast?_eq_some (of_decide_eq_true h.1)) hnl
        unfold domainPatternCore at hcore
        rw [Bool.and_eq_true] at hcore
        have hm := hcore.2
        intro c hc
        rcases (pMatchAux_chars _ [] hm).2 c hc with h | h
        · exact Or.inl h
        · exact Or.inr (Or.inl h)

theorem is_valid_domain_ne_nil {d : List Char} (h : is_valid_domain d = true) :
    d ≠ [] := by
  intro hd
  subst hd
  simp [is_valid_domain] at h

theorem isLabelChar_clean {c : Char} (h : isLabelChar c = true) :
    isPySpace c = false ∧ c ≠ '#' ∧ c ≠ '!' ∧ c ≠ ' ' ∧ c ≠ '/' ∧ c ≠ '?' ∧
      c ≠ '^' ∧ c ≠ '$' ∧ c ≠ '|' ∧ c ≠ '\n' := by
  have hx : ∀ x : Char, isLabelChar x = false → c ≠ x := by
    intro x hxf he
    rw [he, hxf] at h
    exact Bool.false_ne_true h
  refine ⟨?_, hx '#' (by decide), hx '!' (by decide), hx ' ' (by decide),
    hx '/' (by decide), hx '?' (by decide), hx '^' (by decide),
    hx '$' (by decide), hx '|' (by decide), hx '\n' (by decide)⟩
  unfold isPySpace
  simp [hx ' ' (by decide), hx '\t' (by decide), hx '\n' (by decide),
    hx '\r' (by decide), hx '\x0b' (by decide), hx '\x0c' (by decide)]

/-- A convenient bundle: a newline-free valid domain contains none of the
special characters the extractor, the stripper or the serializers care
about. -/
theorem is_valid_domain_clean {d : List Char} (h : is_valid_domain d = true)
    (hnl : '\n' ∉ d) :
    ∀ c ∈ d, isPySpace c = false ∧ c ≠ '#' ∧ c ≠ '!' ∧ c ≠ ' ' ∧ c ≠ '/' ∧
      c ≠ '?' ∧ c ≠ '^' ∧ c ≠ '$' ∧ c ≠ '|' ∧ c ≠ '\n' := by
  intro c hc
  rcases is_valid_domain_chars h hnl c hc with hg | hg | hg
  · exact isLabelChar_clean hg
  · subst hg
    refine ⟨by decide, by decide, by decide, by decide, by decide,
      by decide, by decide, by decide, by decide, by decide⟩
  · subst hg
    refine ⟨by decide, by decide, by decide, by decide, by decide,
      by decide, by decide, by decide, by decide, by decide⟩

theorem yields_nil : yields [] = none := by decide

theorem yields_pyStrip (raw : List Char) : yields (pyStrip raw) = yields raw := by
  unfold yields
  rw [pyStrip_idem]

theorem yields_of_head_hash {l : List Char} (h : l.head? = some '#') :
    yields l = none :=
  yields_of_comment (Or.inl (pyStrip_head_of_head h (by decide)))

theorem yields_valid {raw d : List Char} (h : yields raw = some d) :
    is_valid_domain d = true := by
  unfold yields at h
  split at h
  · simp at h
  · rcases he : extract_domain_from_line (pyStrip raw) with _ | d2
    · rw [he] at h; simp at h
    · rw [he] at h
      dsimp only at h
      by_cases hv : is_valid_domain d2 = true
      · rw [if_pos hv] at h
        obtain rfl : d2 = d := by simpa using h
        exact hv
      · rw [if_neg hv] at h; simp at h

theorem yields_no_newline {raw d : List Char} (h : yields raw = some d)
    (hraw : '\n' ∉ raw) : '\n' ∉ d := by
  intro hm
  unfold yields at h
  split at h
  · simp at h
  · rcases he : extract_domain_from_line (pyStrip raw) with _ | d2
    · rw [he] at h; simp at h
    · rw [he] at h
      dsimp only at h
      split at h
      · obtain rfl : d2 = d := by simpa using h
        exact hraw (mem_pyStrip (extract_chars he '\n' hm))
      · simp at h

theorem yields_eq_some {l d : List Char}
    (hstrip : pyStrip l = l) (hne : l ≠ [])
    (hh : l.head? ≠ some '#') (hh2 : l.head? ≠ some '!')
    (hex : extract_domain_from_line l = some d)
    (hv : is_valid_domain d = true) : yields l = some d := by
  unfold yields
  rw [hstrip]
  rw [if_neg (by push_neg; exact ⟨hne, hh, hh2⟩)]
  rw [hex]
  dsimp only
  rw [if_pos hv]

theorem chompOctet_digit_cons {c x : Char} (hc : Char.isDigit c = true)
    (hx : Char.isDigit x = false) (rest : List Char) :
    chompOctet (c :: x :: rest) = some (x :: rest) := by
  have htw : List.takeWhile Char.isDigit (c :: x :: rest) = [c] := by
    rw [List.takeWhile_cons, if_pos hc, List.takeWhile_cons,
      if_neg (show ¬ (Char.isDigit x = true) by simp [hx])]
  unfold chompOctet
  rw [htw]
  rw [if_pos (by simp)]
  rfl

theorem chompOctet_nonDigit {x : Char} (hx : Char.isDigit x = false)
    (rest : List Char) : chompOctet (x :: rest) = none := by
  have htw : List.takeWhile Char.isDigit (x :: rest) = [] := by
    rw [List.takeWhile_cons,
      if_neg (show ¬ (Char.isDigit x = true) by simp [hx])]
  unfold chompOctet
  rw [htw]
  rw [if_neg (by simp)]

theorem expectChar_hit (c : Char) (rest : List Char) :
    expectChar c (c :: rest) = some rest := by
  show (if c = c then some rest else none) = some rest
  rw [if_pos rfl]

theorem ipDomainMatch_hosts {t : List Char} (hne : t ≠ [])
    (ht : ∀ c ∈ t, isPySpace c = false) :
    ipDomainMatch ("0.0.0.0 ".toList ++ t) = some t := by
  obtain ⟨c0, d', rfl⟩ : ∃ c0 d', t = c0 :: d' := by
    cases t with
    | nil => exact absurd rfl hne
    | cons a b => exact ⟨a, b, rfl⟩
  have hc0 : isPySpace c0 = false := ht c0 (by simp)
  show ipDomainMatch
    ('0' :: '.' :: '0' :: '.' :: '0' :: '.' :: '0' :: ' ' :: c0 :: d') =
    some (c0 :: d')
  have hdrop : List.dropWhile isPySpace
      ('0' :: '.' :: '0' :: '.' :: '0' :: '.' :: '0' :: ' ' :: c0 :: d') =
      '0' :: '.' :: '0' :: '.' :: '0' :: '.' :: '0' :: ' ' :: c0 :: d' := by
    rw [List.dropWhile_cons, if_neg (by decide)]
  have hws : List.takeWhile isPySpace (' ' :: c0 :: d') = [' '] := by
    rw [List.takeWhile_cons, if_pos (by decide), List.takeWhile_cons,
      if_neg (by simp [hc0])]
  simp only [ipDomainMatch, Option.bind_eq_bind]
  rw [hdrop]
  rw [chompOctet_digit_cons (c := '0') (x := '.') (by decide) (by decide)]
  simp only [Option.some_bind]
  rw [expectChar_hit]
  simp only [Option.some_bind]
  rw [chompOctet_digit_cons (c := '0') (x := '.') (by decide) (by decide)]
  simp only [Option.some_bind]
  rw [expectChar_hit]
  simp only [Option.some_bind]
  rw [chompOctet_digit_cons (c := '0') (x := '.') (by decide) (by decide)]
  simp only [Option.some_bind]
  rw [expectChar_hit]
  simp only [Option.some_bind]
  rw [chompOctet_digit_cons (c := '0') (x := ' ') (by decide) (by decide)]
  simp only [Option.some_bind]
  rw [hws]
  rw [show List.drop ([' '] : List Char).length (' ' :: c0 :: d') = c0 :: d'
    from rfl]
  rw [if_pos ⟨by simp, by simp, List.all_eq_true.mpr
    (fun c hc => decide_eq_true (ht c hc))⟩]

theorem adblockScan_no_caret :
    ∀ (d acc : List Char), acc ≠ [] → (∀ c ∈ d, c ≠ '^' ∧ c ≠ '\n') →
    adblockScan acc (d ++ ['^']) = some (acc.reverse ++ d) := by
  intro d
  induction d with
  | nil =>
    intro acc hacc _
    show adblockScan acc ['^'] = some (acc.reverse ++ [])
    unfold adblockScan
    rw [if_neg (by decide)]
    rw [if_pos ⟨hacc, rfl, by decide⟩]
    simp
  | cons c d' ih =>
    intro acc hacc hd
    show adblockScan acc (c :: (d' ++ ['^'])) = some (acc.reverse ++ c :: d')
    unfold adblockScan
    rw [if_neg (hd c (by simp)).2]
    rw [if_neg (fun hand => (hd c (by simp)).1 hand.2.1)]
    rw [ih (c :: acc) (by simp) (fun x hx => hd x (by simp [hx]))]
    simp

theorem adblockMatch_clean {d : List Char} (hne : d ≠ [])
    (hd : ∀ c ∈ d, c ≠ '^' ∧ c ≠ '\n') :
    adblockMatch ('|' :: '|' :: (d ++ ['^'])) = some d := by
  unfold adblockMatch
  rw [if_pos (by rfl)]
  obtain ⟨c, d', rfl⟩ : ∃ c d', d = c :: d' := by
    cases d with
    | nil => exact absurd rfl hne
    | cons a b => exact ⟨a, b, rfl⟩
  show adblockScan [] (c :: (d' ++ ['^'])) = some (c :: d')
  unfold adblockScan
  rw [if_neg (hd c (by simp)).2]
  rw [if_neg (fun hand => hand.1 rfl)]
  rw [adblockScan_no_caret d' [c] (by simp)
    (fun x hx => hd x (by simp [hx]))]
  rfl

theorem hosts_line_strip {d : List Char} (hv : is_valid_domain d = true)
    (hnl : '\n' ∉ d) :
    pyStrip ("0.0.0.0 ".toList ++ d) = "0.0.0.0 ".toList ++ d := by
  have hne := is_valid_domain_ne_nil hv
  refine pyStrip_eq_self ?_ ?_
  · intro a ha
    obtain rfl : a = '0' := by
      cases d <;> simpa using ha.symm
    decide
  · intro a ha
    rw [List.getLast?_append_of_ne_nil _ hne] at ha
    have hmem : a ∈ d := by
      have h2 := List.getLast?_eq_getLast d hne
      rw [h2] at ha
      obtain rfl : a = d.getLast hne := by simpa using ha.symm
      exact List.getLast_mem hne
    exact (is_valid_domain_clean hv hnl a hmem).1

theorem extract_hosts {d : List Char} (hv : is_valid_domain d = true)
    (hnl : '\n' ∉ d) :
    extract_domain_from_line ("0.0.0.0 ".toList ++ d) = some d := by
  have hne := is_valid_domain_ne_nil hv
  have hcl := is_valid_domain_clean hv hnl
  have hstrip := hosts_line_strip hv hnl
  have hclean : ∀ c ∈ "0.0.0.0 ".toList ++ d, ¬ c = '#' ∧ ¬ c = '!' := by
    intro c hc
    rcases List.mem_append.mp hc with hc | hc
    · constructor <;> (intro he; subst he; revert hc; decide)
    · exact ⟨(hcl c hc).2.1, (hcl c hc).2.2.1⟩
  have hinline : removeInlineComments ("0.0.0.0 ".toList ++ d) =
      "0.0.0.0 ".toList ++ d :=
    takeWhile_eq_self_of_all (fun c hc => decide_eq_true (hclean c hc))
  have hhead : ("0.0.0.0 ".toList ++ d).head? = some '0' := by
    cases d <;> rfl
  have hip := ipDomainMatch_hosts (t := d) hne
    (fun c hc => (hcl c hc).1)
  unfold extract_domain_from_line
  rw [hstrip, hinline, hstrip]
  rw [if_neg (by
    push_neg
    refine ⟨by simp [hne], ?_, ?_⟩ <;> (rw [hhead]; decide))]
  rw [if_neg (by simp [hne])]
  rw [hip]

theorem yields_hosts {d : List Char} (hv : is_valid_domain d = true)
    (hnl : '\n' ∉ d) :
    yields ("0.0.0.0 ".toList ++ d) = some d := by
  refine yields_eq_some (hosts_line_strip hv hnl) (by simp) ?_ ?_
    (extract_hosts hv hnl) hv
  · rw [show ("0.0.0.0 ".toList ++ d).head? = some '0' from by cases d <;> rfl]
    decide
  · rw [show ("0.0.0.0 ".toList ++ d).head? = some '0' from by cases d <;> rfl]
    decide

theorem adblock_line_strip {d : List Char} (hv : is_valid_domain d = true) :
    pyStrip ('|' :: '|' :: (d ++ ['^'])) = '|' :: '|' :: (d ++ ['^']) := by
  refine pyStrip_eq_self ?_ ?_
  · intro a ha
    obtain rfl : a = '|' := by simpa using ha.symm
    decide
  · intro a ha
    rw [show ('|' :: '|' :: (d ++ ['^'])).getLast? =
        (('|' :: '|' :: d) ++ ['^']).getLast? from by simp,
      List.getLast?_concat] at ha
    obtain rfl : a = '^' := by simpa using ha.symm
    decide

theorem extract_adblock {d : List Char} (hv : is_valid_domain d = true)
    (hnl : '\n' ∉ d) :
    extract_domain_from_line ('|' :: '|' :: (d ++ ['^'])) = some d := by
  have hne := is_valid_domain_ne_nil hv
  have hcl := is_valid_domain_clean hv hnl
  have hstrip := adblock_line_strip hv
  have hclean : ∀ c ∈ '|' :: '|' :: (d ++ ['^']), ¬ c = '#' ∧ ¬ c = '!' := by
    intro c hc
    rcases List.mem_cons.mp hc with rfl | hc
    · exact ⟨by decide, by decide⟩
    · rcases List.mem_cons.mp hc with rfl | hc
      · exact ⟨by decide, by decide⟩
      · rcases List.mem_append.mp hc with hc | hc
        · exact ⟨(hcl c hc).2.1, (hcl c hc).2.2.1⟩
        · obtain rfl : c = '^' := by simpa using hc
          exact ⟨by decide, by decide⟩
  have hinline : removeInlineComments ('|' :: '|' :: (d ++ ['^'])) =
      '|' :: '|' :: (d ++ ['^']) :=
    takeWhile_eq_self_of_all (fun c hc => decide_eq_true (hclean c hc))
  have hipn : ipDomainMatch ('|' :: '|' :: (d ++ ['^'])) = none := by
    have hdrop : List.dropWhile isPySpace ('|' :: '|' :: (d ++ ['^'])) =
        '|' :: '|' :: (d ++ ['^']) := by
      rw [List.dropWhile_cons, if_neg (by decide)]
    simp only [ipDomainMatch, Option.bind_eq_bind, hdrop]
    rw [chompOctet_nonDigit (x := '|') (by decide)]
    simp only [Option.none_bind]
  have hadb := adblockMatch_clean hne
    (fun c hc => ⟨(hcl c hc).2.2.2.2.2.2.1, (hcl c hc).2.2.2.2.2.2.2.2.2⟩)
  unfold extract_domain_from_line
  rw [hstrip, hinline, hstrip]
  rw [if_neg (by push_neg; refine ⟨by simp, by simp, by simp⟩)]
  rw [if_neg (by simp)]
  rw [hipn, hadb]

theorem yields_adblock {d : List Char} (hv : is_valid_domain d = true)
    (hnl : '\n' ∉ d) :
    yields ('|' :: '|' :: (d ++ ['^'])) = some d :=
  yields_eq_some (adblock_line_strip hv) (by simp) (by simp) (by simp)
    (extract_adblock hv hnl) hv

/-- Invariant of the second-pass state: every collected domain is valid and
newline-free, every remembered format line re-extracts to its own domain
and is newline-free, metadata lines are newline-free comments, and group
names are newline-free. -/
def GoodState (s : OptState) : Prop :=
  (∀ d ∈ s.domains, is_valid_domain d = true ∧ '\n' ∉ d) ∧
  (∀ d l, s.fmts d = some l → yields l = some d ∧ '\n' ∉ l) ∧
  (∀ m ∈ s.metadata, m.head? = some '#' ∧ '\n' ∉ m) ∧
  (∀ p ∈ s.groups, '\n' ∉ p.1)

theorem GoodState_init : GoodState initState := by
  refine ⟨by simp [initState], ?_, by simp [initState], by simp [initState]⟩
  intro d l h
  simp [initState] at h

theorem mem_insertD {x d : List Char} {ds : List (List Char)}
    (h : x ∈ insertD d ds) : x = d ∨ x ∈ ds := by
  unfold insertD at h
  split at h
  · exact Or.inr h
  · rcases List.mem_append.mp h with h | h
    · exact Or.inr h
    · exact Or.inl (by simpa using h)

theorem mem_setEmptyG_keys {gs : List (List Char × List (List Char))}
    {k : List Char} {p : List Char × List (List Char)}
    (h : p ∈ setEmptyG gs k) : p.1 = k ∨ ∃ q ∈ gs, p.1 = q.1 := by
  unfold setEmptyG at h
  split at h
  · obtain ⟨q, hq, hpq⟩ := List.mem_map.mp h
    by_cases hk : q.1 = k
    · rw [if_pos hk] at hpq
      refine Or.inl ?_
      rw [← hpq]
      exact hk
    · rw [if_neg hk] at hpq
      exact Or.inr ⟨q, hq, by rw [← hpq]⟩
  · rcases List.mem_append.mp h with h | h
    · exact Or.inr ⟨p, h, rfl⟩
    · obtain rfl : p = (k, []) := by simpa using h
      exact Or.inl rfl

theorem mem_appendG_keys {gs : List (List Char × List (List Char))}
    {k d : List Char} {p : List Char × List (List Char)}
    (h : p ∈ appendG gs k d) : ∃ q ∈ gs, p.1 = q.1 := by
  unfold appendG at h
  obtain ⟨q, hq, hpq⟩ := List.mem_map.mp h
  by_cases hk : q.1 = k
  · rw [if_pos hk] at hpq
    exact ⟨q, hq, by rw [← hpq]⟩
  · rw [if_neg hk] at hpq
    exact ⟨q, hq, by rw [← hpq]⟩

theorem convLine_head {raw : List Char}
    (h : (pyStrip raw).head? = some '#' ∨ (pyStrip raw).head? = some '!') :
    (convLine raw).head? = some '#' := by
  unfold convLine
  split
  · rfl
  · next hne =>
    rcases h with h | h
    · exact h
    · exact absurd h hne

theorem convLine_no_newline {raw : List Char} (h : '\n' ∉ raw) :
    '\n' ∉ convLine raw := by
  unfold convLine
  split
  · intro hm
    rcases List.mem_cons.mp hm with hm | hm
    · exact absurd hm (by decide)
    · exact h (mem_pyStrip (List.mem_of_mem_tail hm))
  · intro hm
    exact h (mem_pyStrip hm)

theorem groupName_no_newline {l : List Char} (h : '\n' ∉ l) :
    '\n' ∉ groupName l := by
  unfold groupName
  split
  · intro hm
    exact h (List.drop_subset 3 l ((List.dropLast_sublist _).subset (mem_pyStrip hm)))
  · intro hm
    exact h (List.drop_subset 2 l ((List.dropLast_sublist _).subset (mem_pyStrip hm)))

theorem GoodState_step (pm pg pf : Bool) {s : OptState} {raw : List Char}
    (hs : GoodState s) (hraw : '\n' ∉ raw) :
    GoodState (processLine pm pg pf s raw) := by
  obtain ⟨h1, h2, h3, h4⟩ := hs
  by_cases hc : (pyStrip raw).head? = some '#' ∨ (pyStrip raw).head? = some '!'
  · rw [processLine_comment hc]
    refine ⟨h1, h2, ?_, ?_⟩
    · dsimp only
      split
      · intro m hm
        rcases List.mem_append.mp hm with hm | hm
        · exact h3 m hm
        · obtain rfl : m = convLine raw := by simpa using hm
          exact ⟨convLine_head hc, convLine_no_newline hraw⟩
      · exact h3
    · dsimp only
      split
      · intro p hp
        rcases mem_setEmptyG_keys hp with hp1 | ⟨q, hq, hp1⟩
        · rw [hp1]
          exact groupName_no_newline (convLine_no_newline hraw)
        · rw [hp1]
          exact h4 q hq
      · exact h4
  · rcases hy : yields raw with _ | d
    · rw [processLine_of_no_yield hc hy]
      exact ⟨h1, h2, h3, h4⟩
    · rw [processLine_of_yields hy]
      refine ⟨?_, ?_, h3, ?_⟩
      · dsimp only
        intro x hx
        rcases mem_insertD hx with rfl | hx
        · exact ⟨yields_valid hy, yields_no_newline hy hraw⟩
        · exact h1 x hx
      · dsimp only
        split
        · intro d2 l2 hf
          have hf2 : (if d2 = d then some (pyStrip raw) else s.fmts d2) =
              some l2 := hf
          by_cases hd2 : d2 = d
          · rw [if_pos hd2] at hf2
            obtain rfl : pyStrip raw = l2 := by simpa using hf2
            subst hd2
            refine ⟨?_, fun hm => hraw (mem_pyStrip hm)⟩
            rw [yields_pyStrip]
            exact hy
          · rw [if_neg hd2] at hf2
            exact h2 d2 l2 hf2
        · exact h2
      · dsimp only
        split
        · split
          · intro p hp
            obtain ⟨q, hq, hp1⟩ := mem_appendG_keys hp
            rw [hp1]
            exact h4 q hq
          · exact h4
        · exact h4

theorem GoodState_fold (pm pg pf : Bool) :
    ∀ (ls : List (List Char)) (s : OptState), GoodState s →
    (∀ l ∈ ls, '\n' ∉ l) → GoodState (ls.foldl (processLine pm pg pf) s) := by
  intro ls
  induction ls with
  | nil => intro s hs _; exact hs
  | cons l t ih =>
    intro s hs hnn
    rw [List.foldl_cons]
    exact ih _ (GoodState_step pm pg pf hs (hnn l (by simp)))
      (fun x hx => hnn x (by simp [hx]))

theorem processLine_domains (pm pg pf : Bool) (s : OptState) (raw : List Char) :
    (processLine pm pg pf s raw).domains =
      (match yields raw with
       | some d => insertD d s.domains
       | none => s.domains) := by
  by_cases hc : (pyStrip raw).head? = some '#' ∨ (pyStrip raw).head? = some '!'
  · rw [processLine_comment hc, yields_of_comment hc]
  · rcases hy : yields raw with _ | d
    · rw [processLine_of_no_yield hc hy]
    · rw [processLine_of_yields hy]

theorem foldl_domains (pm pg pf : Bool) :
    ∀ (ls : List (List Char)) (s : OptState),
    (ls.foldl (processLine pm pg pf) s).domains =
      ls.foldl (fun ds raw =>
        match yields raw with
        | some d => insertD d ds
        | none => ds) s.domains := by
  intro ls
  induction ls with
  | nil => intro s; rfl
  | cons l t ih =>
    intro s
    rw [List.foldl_cons, List.foldl_cons, ih]
    rw [processLine_domains]

theorem insertD_toFinset (d : List Char) (ds : List (List Char)) :
    (insertD d ds).toFinset = insert d ds.toFinset := by
  unfold insertD
  split
  · next h => exact (Finset.insert_eq_self.mpr (List.mem_toFinset.mpr h)).symm
  · rw [List.toFinset_append]
    rw [Finset.union_comm]
    simp [Finset.insert_eq]

theorem foldl_domStep_toFinset :
    ∀ (ls : List (List Char)) (ds : List (List Char)),
    (ls.foldl (fun ds raw =>
        match yields raw with
        | some d => insertD d ds
        | none => ds) ds).toFinset =
      ds.toFinset ∪ (ls.filterMap yields).toFinset := by
  intro ls
  induction ls with
  | nil => intro ds; simp
  | cons l t ih =>
    intro ds
    rw [List.foldl_cons]
    rcases hy : yields l with _ | d
    · simp only [hy, List.filterMap_cons]
      rw [ih]
    · simp only [hy, List.filterMap_cons]
      rw [ih, insertD_toFinset]
      simp [Finset.insert_union, Finset.union_insert]

theorem domains_toFinset (pm pg pf : Bool) (ls : List (List Char)) :
    ((ls.foldl (processLine pm pg pf) initState).domains).toFinset =
      (ls.filterMap yields).toFinset := by
  rw [foldl_domains, foldl_domStep_toFinset]
  simp [initState]

theorem mem_insSorted {x d : List Char} :
    ∀ {l : List (List Char)}, x ∈ insSorted d l ↔ x = d ∨ x ∈ l := by
  intro l
  induction l with
  | nil => simp [insSorted]
  | cons a t ih =>
    unfold insSorted
    split
    · simp
    · rw [List.mem_cons, ih]
      constructor
      · rintro (h | h | h)
        · exact Or.inr (by simp [h])
        · exact Or.inl h
        · exact Or.inr (by simp [h])
      · rintro (h | h)
        · exact Or.inr (Or.inl h)
        · rcases List.mem_cons.mp h with h | h
          · exact Or.inl h
          · exact Or.inr (Or.inr h)

theorem mem_pySorted {x : List Char} :
    ∀ {l : List (List Char)}, x ∈ pySorted l ↔ x ∈ l := by
  intro l
  induction l with
  | nil => simp [pySorted]
  | cons a t ih =>
    show x ∈ insSorted a (pySorted t) ↔ _
    rw [mem_insSorted, ih]
    simp

theorem mem_concatAll {x : List Char} :
    ∀ {ls : List (List (List Char))}, x ∈ concatAll ls ↔ ∃ l ∈ ls, x ∈ l := by
  intro ls
  induction ls with
  | nil => simp [concatAll]
  | cons a t ih =>
    show x ∈ a ++ concatAll t ↔ _
    rw [List.mem_append, ih]
    constructor
    · rintro (h | ⟨l, hl, h⟩)
      · exact ⟨a, by simp, h⟩
      · exact ⟨l, by simp [hl], h⟩
    · rintro ⟨l, hl, h⟩
      rcases List.mem_cons.mp hl with rfl | hl
      · exact Or.inl h
      · exact Or.inr ⟨l, hl, h⟩

theorem mem_allGroupedL {d : List Char} {domains : List (List Char)}
    {gs : List (List Char × List (List Char))} :
    d ∈ allGroupedL domains gs ↔ ∃ p ∈ gs, d ∈ p.2 ∧ d ∈ domains := by
  have general : ∀ (l : List (List Char × List (List Char)))
      (acc : List (List Char)),
      d ∈ l.foldl (fun acc p =>
        acc ++ p.2.filter (fun x => decide (x ∈ domains))) acc ↔
      d ∈ acc ∨ ∃ p ∈ l, d ∈ p.2 ∧ d ∈ domains := by
    intro l
    induction l with
    | nil => intro acc; simp
    | cons q t ih =>
      intro acc
      rw [List.foldl_cons, ih]
      constructor
      · rintro (h | ⟨p, hp, h2⟩)
        · rcases List.mem_append.mp h with h | h
          · exact Or.inl h
          · have := List.mem_filter.mp h
            exact Or.inr ⟨q, by simp, this.1, by simpa using this.2⟩
        · exact Or.inr ⟨p, by simp [hp], h2⟩
      · rintro (h | ⟨p, hp, h2, h3⟩)
        · exact Or.inl (List.mem_append.mp (List.mem_append_left _ h) |>.elim
            (fun x => List.mem_append_left _ x) (fun x => List.mem_append_left _ x))
        · rcases List.mem_cons.mp hp with rfl | hp
          · exact Or.inl (List.mem_append_right _
              (List.mem_filter.mpr ⟨h2, decide_eq_true h3⟩))
          · exact Or.inr ⟨p, hp, h2, h3⟩
  rw [show allGroupedL domains gs = gs.foldl (fun acc p =>
    acc ++ p.2.filter (fun x => decide (x ∈ domains))) [] from rfl]
  rw [general gs []]
  simp

theorem natReprGo_chars : ∀ (fuel n : ℕ) (acc : List Char),
    (∀ c ∈ acc, c ≠ '\n') → ∀ c ∈ natReprGo fuel n acc, c ≠ '\n' := by
  intro fuel
  induction fuel with
  | zero => intro n acc hacc c hc; exact hacc c hc
  | succ f ih =>
    intro n acc hacc c hc
    unfold natReprGo at hc
    split at hc
    · exact hacc c hc
    · refine ih _ _ ?_ c hc
      intro x hx
      rcases List.mem_cons.mp hx with rfl | hx
      · intro he
        have hm : n % 10 < 10 := Nat.mod_lt _ (by norm_num)
        set m := n % 10 with hmdef
        interval_cases m <;> exact absurd he (by decide)
      · exact hacc x hx

theorem natRepr_no_newline (n : ℕ) : ∀ c ∈ natRepr n, c ≠ '\n' := by
  unfold natRepr
  split
  · intro c hc
    obtain rfl : c = '0' := by simpa using hc
    decide
  · exact natReprGo_chars _ _ [] (by simp)

theorem fmtLineGrp_yields {pf : Bool} {fmts : List Char → Option (List Char)}
    {d : List Char}
    (hf : ∀ d2 l, fmts d2 = some l → yields l = some d2 ∧ '\n' ∉ l)
    (hv : is_valid_domain d = true) (hnl : '\n' ∉ d) :
    yields (fmtLineGrp pf fmts d) = some d ∧ '\n' ∉ fmtLineGrp pf fmts d := by
  have hfall : yields ("0.0.0.0 ".toList ++ d) = some d ∧
      '\n' ∉ ("0.0.0.0 ".toList ++ d) := by
    refine ⟨yields_hosts hv hnl, ?_⟩
    intro hm
    rcases List.mem_append.mp hm with hm | hm
    · revert hm; decide
    · exact hnl hm
  cases pf with
  | false => exact hfall
  | true =>
    rcases hfd : fmts d with _ | l
    · unfold fmtLineGrp
      rw [hfd]
      exact hfall
    · unfold fmtLineGrp
      rw [hfd]
      exact hf d l hfd

theorem fmtLinePlain_yields {pf as : Bool}
    {fmts : List Char → Option (List Char)} {d : List Char}
    (hf : ∀ d2 l, fmts d2 = some l → yields l = some d2 ∧ '\n' ∉ l)
    (hv : is_valid_domain d = true) (hnl : '\n' ∉ d) :
    yields (fmtLinePlain pf as fmts d) = some d ∧
      '\n' ∉ fmtLinePlain pf as fmts d := by
  have hfall : yields (if as then '|' :: '|' :: (d ++ ['^'])
      else "0.0.0.0 ".toList ++ d) = some d ∧
      '\n' ∉ (if as then '|' :: '|' :: (d ++ ['^'])
      else "0.0.0.0 ".toList ++ d) := by
    cases as with
    | true =>
      rw [if_pos rfl]
      refine ⟨yields_adblock hv hnl, ?_⟩
      intro hm
      rcases List.mem_cons.mp hm with hm | hm
      · exact absurd hm (by decide)
      · rcases List.mem_cons.mp hm with hm | hm
        · exact absurd hm (by decide)
        · rcases List.mem_append.mp hm with hm | hm
          · exact hnl hm
          · have : '\n' = '^' := by simpa using hm
            exact absurd this (by decide)
    | false =>
      rw [if_neg (by simp)]
      refine ⟨yields_hosts hv hnl, ?_⟩
      intro hm
      rcases List.mem_append.mp hm with hm | hm
      · revert hm; decide
      · exact hnl hm
  cases pf with
  | false => exact hfall
  | true =>
    rcases hfd : fmts d with _ | l
    · unfold fmtLinePlain
      rw [hfd]
      exact hfall
    · unfold fmtLinePlain
      rw [hfd]
      exact hf d l hfd

theorem buildOutput_sound (pm pg pf as : Bool) (now : List Char)
    (st : OptState) (hst : GoodState st) :
    ∀ l ∈ buildOutput pm pg pf as now st,
      yields l = none ∨ ∃ d ∈ st.domains, yields l = some d := by
  obtain ⟨h1, h2, h3, h4⟩ := hst
  intro l hl
  unfold buildOutput at hl
  rcases List.mem_append.mp hl with hl | hl
  · rcases List.mem_append.mp hl with hl | hl
    · split at hl
      · exact Or.inl (yields_of_head_hash (h3 l hl).1)
      · rcases List.mem_cons.mp hl with rfl | hl
        · exact Or.inl (yields_of_head_hash rfl)
        · obtain rfl : l = "# Last updated: ".toList ++ now := by simpa using hl
          exact Or.inl (yields_of_head_hash rfl)
    · rcases List.mem_cons.mp hl with rfl | hl
      · exact Or.inl (yields_of_head_hash rfl)
      · obtain rfl : l = [] := by simpa using hl
        exact Or.inl yields_nil
  · split at hl
    · rcases List.mem_append.mp hl with hl | hl
      · rw [mem_concatAll] at hl
        obtain ⟨sec, hsec, hl⟩ := hl
        obtain ⟨p, hp, rfl⟩ := List.mem_map.mp hsec
        unfold groupSection at hl
        split at hl
        · simp at hl
        · rcases List.mem_cons.mp hl with rfl | hl
          · exact Or.inl (yields_of_head_hash rfl)
          · rcases List.mem_append.mp hl with hl | hl
            · obtain ⟨d, hd, rfl⟩ := List.mem_map.mp hl
              rw [mem_pySorted] at hd
              have hdd : d ∈ st.domains := by
                have := List.mem_filter.mp hd
                simpa using this.2
              exact Or.inr ⟨d, hdd, (fmtLineGrp_yields h2 (h1 d hdd).1 (h1 d hdd).2).1⟩
            · obtain rfl : l = [] := by simpa using hl
              exact Or.inl yields_nil
      · unfold ungroupedSection at hl
        split at hl
        · simp at hl
        · rcases List.mem_cons.mp hl with rfl | hl
          · exact Or.inl (yields_of_head_hash rfl)
          · obtain ⟨d, hd, rfl⟩ := List.mem_map.mp hl
            rw [mem_pySorted] at hd
            have hdd : d ∈ st.domains := (List.mem_filter.mp hd).1
            exact Or.inr ⟨d, hdd, (fmtLineGrp_yields h2 (h1 d hdd).1 (h1 d hdd).2).1⟩
    · obtain ⟨d, hd, rfl⟩ := List.mem_map.mp hl
      rw [mem_pySorted] at hd
      exact Or.inr ⟨d, hd, (fmtLinePlain_yields h2 (h1 d hd).1 (h1 d hd).2).1⟩

theorem buildOutput_complete (pm pg pf as : Bool) (now : List Char)
    (st : OptState) (hst : GoodState st) :
    ∀ d ∈ st.domains, ∃ l ∈ buildOutput pm pg pf as now st,
      yields l = some d := by
  obtain ⟨h1, h2, -, -⟩ := hst
  intro d hd
  unfold buildOutput
  by_cases hb : pg ∧ st.groups ≠ []
  · rw [if_pos hb]
    by_cases hg : d ∈ allGroupedL st.domains st.groups
    · obtain ⟨p, hp, hdp, hdd⟩ := mem_allGroupedL.mp hg
      refine ⟨fmtLineGrp pf st.fmts d, ?_,
        (fmtLineGrp_yields h2 (h1 d hd).1 (h1 d hd).2).1⟩
      refine List.mem_append_right _ (List.mem_append_left _ ?_)
      rw [mem_concatAll]
      refine ⟨groupSection pf st.fmts st.domains p,
        List.mem_map_of_mem _ hp, ?_⟩
      have hmem : d ∈ p.2.filter (fun x => decide (x ∈ st.domains)) :=
        List.mem_filter.mpr ⟨hdp, decide_eq_true hdd⟩
      unfold groupSection
      rw [if_neg (List.ne_nil_of_mem hmem)]
      exact List.mem_cons_of_mem _ (List.mem_append_left _
        (List.mem_map_of_mem _ (mem_pySorted.mpr hmem)))
    · refine ⟨fmtLineGrp pf st.fmts d, ?_,
        (fmtLineGrp_yields h2 (h1 d hd).1 (h1 d hd).2).1⟩
      refine List.mem_append_right _ (List.mem_append_right _ ?_)
      have hmem : d ∈ st.domains.filter
          (fun x => decide (x ∉ allGroupedL st.domains st.groups)) :=
        List.mem_filter.mpr ⟨hd, decide_eq_true hg⟩
      unfold ungroupedSection
      rw [if_neg (List.ne_nil_of_mem hmem)]
      exact List.mem_cons_of_mem _
        (List.mem_map_of_mem _ (mem_pySorted.mpr hmem))
  · rw [if_neg hb]
    refine ⟨fmtLinePlain pf as st.fmts d, ?_,
      (fmtLinePlain_yields h2 (h1 d hd).1 (h1 d hd).2).1⟩
    exact List.mem_append_right _
      (List.mem_map_of_mem _ (mem_pySorted.mpr hd))

theorem buildOutput_no_newline (pm pg pf as : Bool) (now : List Char)
    (st : OptState) (hst : GoodState st) (hnow : '\n' ∉ now) :
    ∀ l ∈ buildOutput pm pg pf as now st, '\n' ∉ l := by
  obtain ⟨h1, h2, h3, h4⟩ := hst
  intro l hl
  unfold buildOutput at hl
  rcases List.mem_append.mp hl with hl | hl
  · rcases List.mem_append.mp hl with hl | hl
    · split at hl
      · exact (h3 l hl).2
      · rcases List.mem_cons.mp hl with rfl | hl
        · decide
        · obtain rfl : l = "# Last updated: ".toList ++ now := by simpa using hl
          intro hm
          rcases List.mem_append.mp hm with hm | hm
          · revert hm; decide
          · exact hnow hm
    · rcases List.mem_cons.mp hl with rfl | hl
      · intro hm
        rcases List.mem_append.mp hm with hm | hm
        · revert hm; decide
        · exact natRepr_no_newline _ _ hm rfl
      · obtain rfl : l = [] := by simpa using hl
        simp
  · split at hl
    · rcases List.mem_append.mp hl with hl | hl
      · rw [mem_concatAll] at hl
        obtain ⟨sec, hsec, hl⟩ := hl
        obtain ⟨p, hp, rfl⟩ := List.mem_map.mp hsec
        unfold groupSection at hl
        split at hl
        · simp at hl
        · rcases List.mem_cons.mp hl with rfl | hl
          · intro hm
            rcases List.mem_cons.mp hm with hm | hm
            · exact absurd hm (by decide)
            · rcases List.mem_cons.mp hm with hm | hm
              · exact absurd hm (by decide)
              · rcases List.mem_append.mp hm with hm | hm
                · exact h4 p hp hm
                · have : '\n' = ']' := by simpa using hm
                  exact absurd this (by decide)
          · rcases List.mem_append.mp hl with hl | hl
            · obtain ⟨d, hd, rfl⟩ := List.mem_map.mp hl
              rw [mem_pySorted] at hd
              have hdd : d ∈ st.domains := by
                have := List.mem_filter.mp hd
                simpa using this.2
              exact (fmtLineGrp_yields h2 (h1 d hdd).1 (h1 d hdd).2).2
            · obtain rfl : l = [] := by simpa using hl
              simp
      · unfold ungroupedSection at hl
        split at hl
        · simp at hl
        · rcases List.mem_cons.mp hl with rfl | hl
          · decide
          · obtain ⟨d, hd, rfl⟩ := List.mem_map.mp hl
            rw [mem_pySorted] at hd
            have hdd : d ∈ st.domains := (List.mem_filter.mp hd).1
            exact (fmtLineGrp_yields h2 (h1 d hdd).1 (h1 d hdd).2).2
    · obtain ⟨d, hd, rfl⟩ := List.mem_map.mp hl
      rw [mem_pySorted] at hd
      exact (fmtLinePlain_yields h2 (h1 d hd).1 (h1 d hd).2).2

theorem buildOutput_ne_nil (pm pg pf as : Bool) (now : List Char)
    (st : OptState) : buildOutput pm pg pf as now st ≠ [] := by
  intro h
  have hmem : ("# Total domains: ".toList ++ natRepr st.domains.length) ∈
      buildOutput pm pg pf as now st := by
    unfold buildOutput
    exact List.mem_append_left _ (List.mem_append_right _ (by simp))
  rw [h] at hmem
  simp at hmem

theorem filterMap_pySplitlines_joinNl (out : List (List Char))
    (hne : out ≠ []) (hnn : ∀ l ∈ out, '\n' ∉ l) :
    (pySplitlines (joinNl out)).filterMap yields = out.filterMap yields := by
  have hsp := splitOnSep_joinNl hne hnn
  unfold pySplitlines
  rw [hsp]
  split
  · next hlast =>
    have hgl : out.getLast hne = [] := by
      rw [List.getLast?_eq_getLast out hne] at hlast
      simpa using hlast
    conv_rhs => rw [(List.dropLast_append_getLast hne).symm]
    rw [List.filterMap_append, hgl]
    simp [yields_nil]
  · rfl

/-- C2: idempotence of normalization on the domain set.  For any content and
any fixed flag setting, re-running the normalizer body on its own serialized
output yields the same domain set: every non-comment, non-blank output line
extracts and validates back to a domain of the first run's set, and every
domain of the set is emitted on at least one such line.  `now1` (the
timestamp interpolated into the synthetic header) must not contain a newline
— Python's `strftime('%Y-%m-%d %H:%M:%S')` never does. -/
theorem claim_C2 (content : List Char) (pm pg pf : Bool)
    (now1 now2 : List Char) (h1 : '\n' ∉ now1) :
    ((optimizeCore (optimizeCore content pm pg pf now1).1
        pm pg pf now2).2).toFinset =
      ((optimizeCore content pm pg pf now1).2).toFinset := by
  have hGood : GoodState ((pySplitlines content).foldl
      (processLine pm pg (detectPreserveFormat pf (pySplitlines content)))
      initState) :=
    GoodState_fold _ _ _ _ initState GoodState_init
      (fun _ hl => no_newline_of_mem_pySplitlines hl)
  have hnn := buildOutput_no_newline pm pg
    (detectPreserveFormat pf (pySplitlines content))
    (detectAdblockStyle (pySplitlines content)) now1 _ hGood h1
  have hsound := buildOutput_sound pm pg
    (detectPreserveFormat pf (pySplitlines content))
    (detectAdblockStyle (pySplitlines content)) now1 _ hGood
  have hcomp := buildOutput_complete pm pg
    (detectPreserveFormat pf (pySplitlines content))
    (detectAdblockStyle (pySplitlines content)) now1 _ hGood
  have hne := buildOutput_ne_nil pm pg
    (detectPreserveFormat pf (pySplitlines content))
    (detectAdblockStyle (pySplitlines content)) now1
    ((pySplitlines content).foldl
      (processLine pm pg (detectPreserveFormat pf (pySplitlines content)))
      initState)
  have htext : (optimizeCore content pm pg pf now1).1 =
      joinNl (buildOutput pm pg
        (detectPreserveFormat pf (pySplitlines content))
        (detectAdblockStyle (pySplitlines content)) now1
        ((pySplitlines content).foldl
          (processLine pm pg
            (detectPreserveFormat pf (pySplitlines content))) initState)) :=
    rfl
  have hdom1 : (optimizeCore content pm pg pf now1).2 =
      ((pySplitlines content).foldl
        (processLine pm pg (detectPreserveFormat pf (pySplitlines content)))
        initState).domains := rfl
  have hrun2 : ∀ (text : List Char),
      ((optimizeCore text pm pg pf now2).2).toFinset =
        ((pySplitlines text).filterMap yields).toFinset := by
    intro text
    exact domains_toFinset _ _ _ _
  rw [htext, hdom1, hrun2]
  rw [filterMap_pySplitlines_joinNl _ hne hnn]
  ext d
  simp only [List.mem_toFinset]
  constructor
  · intro hd
    obtain ⟨l, hl, hyl⟩ := List.mem_filterMap.mp hd
    rcases hsound l hl with hnone | ⟨d2, hd2, hsome⟩
    · rw [hyl] at hnone
      exact absurd hnone (by simp)
    · rw [hyl] at hsome
      obtain rfl : d = d2 := by simpa using hsome
      exact hd2
  · intro hd
    obtain ⟨l, hl, hyl⟩ := hcomp d hd
    exact List.mem_filterMap.mpr ⟨l, hl, hyl⟩

theorem claim_C2_witness :
    ((optimizeCore (optimizeCore
        ("# title: demo\n#[grp]\n0.0.0.0 x.com\n||y.com^\nz.com # note"
          |>.toList) true true false ("2025-01-01".toList)).1
        true true false ("2025-01-02".toList)).2).toFinset =
      ((optimizeCore ("# title: demo\n#[grp]\n0.0.0.0 x.com\n||y.com^\nz.com # note"
          |>.toList) true true false ("2025-01-01".toList)).2).toFinset :=
  claim_C2 _ true true false _ ("2025-01-02".toList) (by decide)

end Pihole
